import Mathlib

/-!
# Verification of the koilib core specification

The repository ships only TypeScript declaration files (`Signer.d.ts`,
`Contract.d.ts`, `Provider.d.ts`); the implementations of the schema-driven
binary codec, the Base58/Base58Check transforms, the WIF import/export, the
key/address engine, the recoverable-signature engine, the merkle engine and
the genesis-data dictionary codec are not part of the sources.  Every
operation below is therefore modelled from the specification's contracts
(sections 4.1-4.6 of the spec), faithful to its words, and the claimed
properties are proved against these models.

Bytes are modelled as natural numbers (`List Nat`, each entry `< 256` where
it matters); machine integers are `Nat` with explicit reductions.
-/

namespace Koilib

/-! ## Positional digit encodings

Shared infrastructure for the Base58 transform and the big-endian byte
interpretation of big integers.  Little-endian digit extraction is written
with explicit fuel so that every definition evaluates by kernel reduction. -/

/-- Little-endian digits of `n` in base `base`, using `fuel` as a structural
recursion bound; `fuel ≥ n` is always enough. -/
def natToDigitsAux (base : Nat) : Nat → Nat → List Nat
  | _, 0 => []
  | 0, _ + 1 => []
  | fuel + 1, n + 1 => ((n + 1) % base) :: natToDigitsAux base fuel ((n + 1) / base)

/-- Big-endian digits of `n` in base `base` (no leading zero digit; `0`
yields the empty list). -/
def natToDigits (base n : Nat) : List Nat := (natToDigitsAux base n n).reverse

/-- Value of a big-endian digit list in base `base`. -/
def digitsToNat (base : Nat) (ds : List Nat) : Nat :=
  ds.foldl (fun acc d => acc * base + d) 0

/-- Value of a little-endian digit list in base `base`. -/
def valLE (base : Nat) : List Nat → Nat
  | [] => 0
  | d :: ds => d + base * valLE base ds

/-! ## Byte-transform layer: Base58 and Base58Check

Modelled from the spec (section 4.2): per-field codecs translating between
human-readable string encodings and raw bytes; the Base58Check transform
additionally validates/attaches a version byte and a 4-byte checksum
(double-hash prefix).  The hash itself is a protocol constant the spec pins
externally (section 9), so it is a parameter here. -/

def base58Alphabet : List Char :=
  "123456789ABCDEFGHJKLMNPQRSTUVWXYZabcdefghijkmnopqrstuvwxyz".toList

/-- Character of a single base-58 digit. -/
def b58Char (d : Nat) : Char := base58Alphabet.getD d ' '

/-- Digit value of a base-58 character; `none` on invalid alphabet. -/
def b58Val (c : Char) : Option Nat := base58Alphabet.indexOf? c

/-- Digit values of a character list; `none` if any character is outside
the alphabet (`MalformedEncoding`). -/
def b58Vals : List Char → Option (List Nat)
  | [] => some []
  | c :: cs =>
    match b58Val c, b58Vals cs with
    | some d, some ds => some (d :: ds)
    | _, _ => none

/-- Modelled from the spec (section 4.2): Base58 encoding of a byte string —
one leading-alphabet character per leading zero byte, then the big-endian
base-58 digits of the remaining value. -/
def base58Encode (bs : List Nat) : String :=
  String.mk ((bs.takeWhile (· == 0)).map (fun _ => '1') ++
    (natToDigits 58 (digitsToNat 256 (bs.dropWhile (· == 0)))).map b58Char)

/-- Modelled from the spec (section 4.2): Base58 decoding, `none` on invalid
alphabet characters (`MalformedEncoding`). -/
def base58Decode (s : String) : Option (List Nat) :=
  match b58Vals (s.toList.dropWhile (· == '1')) with
  | none => none
  | some ds =>
      some ((s.toList.takeWhile (· == '1')).map (fun _ => 0) ++
        natToDigits 256 (digitsToNat 58 ds))

/-- Decidable equality of `Except` results (not provided by core). -/
instance exceptDecidableEq {e a : Type} [DecidableEq e] [DecidableEq a] :
    DecidableEq (Except e a)
  | .ok x, .ok y =>
    if h : x = y then .isTrue (by rw [h]) else .isFalse (fun hc => h (Except.ok.inj hc))
  | .error x, .error y =>
    if h : x = y then .isTrue (by rw [h]) else .isFalse (fun hc => h (Except.error.inj hc))
  | .ok _, .error _ => .isFalse (fun hc => Except.noConfusion hc)
  | .error _, .ok _ => .isFalse (fun hc => Except.noConfusion hc)

/-- Modelled from the spec (sections 4.2, 7): encoding-layer errors. -/
inductive EncodingError where
  | MalformedEncoding
  | ChecksumMismatch
deriving DecidableEq

/-- Modelled from the spec (section 4.2): the 4-byte checksum — the leading
bytes of a double application of the protocol hash `H`; the hash itself is a
pinned protocol constant (section 9), so it is a parameter. -/
def checksum (H : List Nat → List Nat) (payload : List Nat) : List Nat :=
  (H (H payload)).take 4

/-- Modelled from the spec (section 4.2): Base58Check encoding of a
versioned payload — append the 4-byte checksum and Base58-encode. -/
def base58CheckEncode (H : List Nat → List Nat) (versionedPayload : List Nat) : String :=
  base58Encode (versionedPayload ++ checksum H versionedPayload)

/-- Modelled from the spec (section 4.2): Base58Check decoding — fails with
`ChecksumMismatch` if the trailing 4 bytes do not match the recomputed
checksum of the version byte plus payload. -/
def base58CheckDecode (H : List Nat → List Nat) (s : String) :
    Except EncodingError (List Nat) :=
  match base58Decode s with
  | none => .error .MalformedEncoding
  | some bytes =>
    if bytes.length < 5 then .error .MalformedEncoding
    else if bytes.drop (bytes.length - 4) = checksum H (bytes.take (bytes.length - 4)) then
      .ok (bytes.take (bytes.length - 4))
    else .error .ChecksumMismatch

/-- Big-endian byte string of `n`, zero-padded on the left to `w` bytes. -/
def natToBytesFixed (w n : Nat) : List Nat :=
  List.replicate (w - (natToDigits 256 n).length) 0 ++ natToDigits 256 n

/-- Modelled from the spec (section 4.5): `toWif` — version byte `0x80`, the
32 big-endian key bytes, an optional compressed-key suffix marker `0x01`,
and the Base58Check checksum scheme. -/
def toWif (H : List Nat → List Nat) (k : Nat) (compressed : Bool) : String :=
  base58CheckEncode H (128 :: (natToBytesFixed 32 k ++ if compressed then [1] else []))

/-- Modelled from the spec (section 4.5): `fromWif` — the symmetric
transform removing the checksum, the version byte and the optional
compressed-key suffix marker. -/
def fromWif (H : List Nat → List Nat) (s : String) :
    Except EncodingError (Nat × Bool) :=
  match base58CheckDecode H s with
  | .error e => .error e
  | .ok bytes =>
    match bytes with
    | 128 :: rest =>
      if rest.length = 33 ∧ rest.getLast? = some 1 then
        .ok (digitsToNat 256 (rest.take 32), true)
      else if rest.length = 32 then
        .ok (digitsToNat 256 rest, false)
      else .error .MalformedEncoding
    | _ => .error .MalformedEncoding

/-! ## Key and address engine -/

/-- Modelled from the spec (sections 4.5, 7): key-engine errors. -/
inductive KeyError where
  | InvalidPrivateKey
  | InvalidSeed
deriving DecidableEq

/-- Modelled from the spec (section 9): the curve order is a pinned protocol
constant — the secp256k1 group order. -/
def curveOrder : Nat :=
  0xfffffffffffffffffffffffffffffffebaaedce6af48a03bbfd25e8cd0364141

/-- Hex-digit value (case-insensitive); `none` on a non-hex character. -/
def hexVal (c : Char) : Option Nat :=
  "0123456789abcdef".toList.indexOf? c.toLower

/-- Hex-digit values of a character list; `none` if any is malformed. -/
def hexVals : List Char → Option (List Nat)
  | [] => some []
  | c :: cs =>
    match hexVal c, hexVals cs with
    | some d, some ds => some (d :: ds)
    | _, _ => none

/-- Modelled from the spec (section 4.5): a private scalar supplied as hex
string, decimal/bigint, or raw bytes. -/
inductive PrivateKeyInput where
  | hex (s : String)
  | big (n : Nat)
  | raw (bs : List Nat)

/-- Parse a private-key input into a scalar; `none` on malformed hex or
out-of-range raw bytes. -/
def parsePrivateKey : PrivateKeyInput → Option Nat
  | .hex s =>
    match hexVals s.toList with
    | none => none
    | some ds => some (digitsToNat 16 ds)
  | .big n => some n
  | .raw bs => if ∀ b ∈ bs, b < 256 then some (digitsToNat 256 bs) else none

/-- Modelled from the spec (section 3): `KeyMaterial` — the scalar private
key, the compressed flag, and the derived public key and address. -/
structure KeyMaterial where
  privateKey : Nat
  compressed : Bool
  publicKey : List Nat
  address : String
deriving DecidableEq

/-- Modelled from the spec (section 4.5): construct a `KeyMaterial` from a
private scalar — fails with `InvalidPrivateKey` if the scalar is zero or at
least the curve order; the public key and the address are computed by the
pure derivation functions `derivePub` and `deriveAddr` (their curve and
hash are pinned protocol constants, section 9, so they are parameters). -/
def deriveKeyMaterial (derivePub : Nat → Bool → List Nat)
    (deriveAddr : List Nat → String) (input : PrivateKeyInput)
    (compressed : Bool) : Except KeyError KeyMaterial :=
  match parsePrivateKey input with
  | none => .error .InvalidPrivateKey
  | some k =>
    if k = 0 ∨ curveOrder ≤ k then .error .InvalidPrivateKey
    else .ok ⟨k, compressed, derivePub k compressed,
      deriveAddr (derivePub k compressed)⟩

/-! ## Digest and merkle engine

Modelled from the spec (section 4.4): pairwise hash-and-combine bottom-up;
odd counts promote the last unpaired node unchanged to the next level; the
empty sequence yields the defined empty-root digest.  The combining hash
and the empty-root constant are pinned protocol constants (section 9), so
they are parameters. -/

/-- One level of the merkle construction: combine nodes pairwise; an odd
leftover node is promoted unchanged to the next level. -/
def merkleLevel {D : Type} (comb : D → D → D) : List D → List D
  | [] => []
  | [x] => [x]
  | x :: y :: rest => comb x y :: merkleLevel comb rest

/-- Bottom-up level iteration; `fuel` bounds the number of levels (the leaf
count always suffices). -/
def merkleRootAux {D : Type} (comb : D → D → D) (empty : D) : Nat → List D → D
  | _, [] => empty
  | _, [x] => x
  | 0, x :: _ :: _ => x
  | fuel + 1, x :: y :: rest =>
    merkleRootAux comb empty fuel (merkleLevel comb (x :: y :: rest))

/-- Modelled from the spec (section 4.4): `merkleRoot` over a sequence of
digests. -/
def merkleRoot {D : Type} (comb : D → D → D) (empty : D) (leaves : List D) : D :=
  merkleRootAux comb empty leaves.length leaves

/-! ## Dictionary-driven genesis codec

Modelled from the spec (section 4.3, dictionary-driven variant): given an
entry `(spaceDescriptor, key or alias, value)`, resolve the concrete schema
via the dictionary using the key (or the alias, translated via a reverse
lookup) before delegating to the generic schema-driven codec; unresolved
keys fall back to raw-bytes passthrough rather than failing.  Each
dictionary entry carries the codec obtained from its serializer and type
name, abstracted as an encode/decode pair on the value type `V`. -/

/-- The decoded value of a genesis entry: a structured value for a
registered key, raw bytes for an unregistered one. -/
inductive GenDecodedValue (V : Type) where
  | structured (v : V)
  | raw (bs : List Nat)
deriving DecidableEq

/-- A genesis entry before encoding. -/
structure GenesisEntryDecoded (S V : Type) where
  space : S
  key : Option String
  aliasName : Option String
  value : GenDecodedValue V
deriving DecidableEq

/-- A genesis entry after encoding: the value is wire bytes. -/
structure GenesisEntryEncoded (S : Type) where
  space : S
  key : Option String
  aliasName : Option String
  value : List Nat
deriving DecidableEq

/-- A dictionary entry: an opaque storage key, an optional alias, and the
schema-driven codec for values stored under that key. -/
structure DictEntry (V : Type) where
  key : String
  aliasName : Option String
  encodeValue : V → Option (List Nat)
  decodeValue : List Nat → Option V

/-- Resolve a dictionary entry by key, or by alias via reverse lookup. -/
def resolveDictEntry {V : Type} (dict : List (DictEntry V))
    (key aliasName : Option String) : Option (DictEntry V) :=
  match key with
  | some k => dict.find? (fun d => d.key == k)
  | none =>
    match aliasName with
    | some a => dict.find? (fun d => d.aliasName == some a)
    | none => none

/-- Encode one genesis entry: delegate registered keys to the entry's
schema-driven codec, pass unregistered raw values through unchanged. -/
def encodeGenesisEntry {S V : Type} (dict : List (DictEntry V))
    (e : GenesisEntryDecoded S V) : Option (GenesisEntryEncoded S) :=
  match resolveDictEntry dict e.key e.aliasName with
  | some d =>
    match e.value with
    | .structured v =>
      match d.encodeValue v with
      | some bs => some ⟨e.space, e.key, e.aliasName, bs⟩
      | none => none
    | .raw _ => none
  | none =>
    match e.value with
    | .raw bs => some ⟨e.space, e.key, e.aliasName, bs⟩
    | .structured _ => none

/-- Decode one genesis entry: delegate registered keys to the entry's
schema-driven codec, pass unregistered values through as raw bytes. -/
def decodeGenesisEntry {S V : Type} (dict : List (DictEntry V))
    (e : GenesisEntryEncoded S) : Option (GenesisEntryDecoded S V) :=
  match resolveDictEntry dict e.key e.aliasName with
  | some d =>
    match d.decodeValue e.value with
    | some v => some ⟨e.space, e.key, e.aliasName, .structured v⟩
    | none => none
  | none => some ⟨e.space, e.key, e.aliasName, .raw e.value⟩

/-- Modelled from the spec (section 4.3): `encodeGenesisData` over the
entry list. -/
def encodeGenesisData {S V : Type} (dict : List (DictEntry V)) :
    List (GenesisEntryDecoded S V) → Option (List (GenesisEntryEncoded S))
  | [] => some []
  | e :: es =>
    match encodeGenesisEntry dict e, encodeGenesisData dict es with
    | some e2, some es2 => some (e2 :: es2)
    | _, _ => none

/-- Modelled from the spec (section 4.3): `decodeGenesisData` over the
entry list. -/
def decodeGenesisData {S V : Type} (dict : List (DictEntry V)) :
    List (GenesisEntryEncoded S) → Option (List (GenesisEntryDecoded S V))
  | [] => some []
  | e :: es =>
    match decodeGenesisEntry dict e, decodeGenesisData dict es with
    | some e2, some es2 => some (e2 :: es2)
    | _, _ => none

/-! ## Signature engine

Modelled from the spec (section 4.6): ECDSA with a compact recoverable
signature `(recovery id, r, s)`.  The curve parameters are pinned protocol
constants the spec leaves external (section 9), so the curve group `P`, its
generator `G`, its prime order `n`, the x-coordinate projection `xmap`, the
candidate-point reconstruction `cands` (the points sharing an
x-projection), and the point serialization are parameters.  The recovery
id embedded in the signature is the index of the nonce point in the
candidate list of its own x-projection, so recovery needs no brute force. -/

/-- Modelled from the spec (section 3): a compact recoverable signature —
recovery id, `r`, and `s`. -/
structure CompactSignature (n : Nat) where
  recId : Nat
  r : ZMod n
  s : ZMod n

/-- Modelled from the spec (section 4.5): `derivePublicKey` — scalar
multiplication of the curve base point, then point serialization in
compressed or uncompressed form. -/
def derivePublicKey {P : Type} [AddCommGroup P] {n : Nat}
    (serialize : P → Bool → List Nat) (G : P) (k : ZMod n)
    (compressed : Bool) : List Nat :=
  serialize (k.val • G) compressed

/-- Modelled from the spec (section 4.6): `signHash` — ECDSA signing of the
digest `z` with key `k` and the deterministic per-message nonce `t`; the
recovery id is chosen as the index of the nonce point among the candidate
points sharing the signature's `r`, so that re-deriving the public key
from `(digest, signature, recovery id)` yields exactly the signer's key. -/
def signHash {P : Type} [AddCommGroup P] [DecidableEq P] {n : Nat} (G : P)
    (xmap : P → ZMod n) (cands : ZMod n → List P) (k z t : ZMod n) :
    CompactSignature n :=
  ⟨(cands (xmap (t.val • G))).indexOf (t.val • G),
    xmap (t.val • G),
    t⁻¹ * (z + xmap (t.val • G) * k)⟩

/-- Modelled from the spec (section 4.6): `recoverPublicKey` — use the
embedded recovery id directly to reconstruct the unique candidate nonce
point, compute `r⁻¹·(s·R − z·G)`, and serialize it; fails
(`InvalidSignature`) when the recovery id selects no candidate. -/
def recoverPublicKey {P : Type} [AddCommGroup P] {n : Nat}
    (serialize : P → Bool → List Nat) (G : P) (cands : ZMod n → List P)
    (z : ZMod n) (sig : CompactSignature n) (compressed : Bool) :
    Option (List Nat) :=
  match (cands sig.r)[sig.recId]? with
  | none => none
  | some R => some (serialize ((sig.r⁻¹).val • (sig.s.val • R - z.val • G)) compressed)

/-- Modelled from the spec (section 4.6): `recoverAddress` composes
public-key recovery with address derivation. -/
def recoverAddress {P : Type} [AddCommGroup P] {n : Nat}
    (serialize : P → Bool → List Nat) (deriveAddr : List Nat → String)
    (G : P) (cands : ZMod n → List P) (z : ZMod n)
    (sig : CompactSignature n) (compressed : Bool) : Option String :=
  (recoverPublicKey serialize G cands z sig compressed).map deriveAddr

/-! ## Optional compressed flag at the public interface

Modelled from the source declarations: every public entry point takes an
optional `compressed` flag (`compressed?: boolean`); the documentation
states the omitted flag means `true` (constructor, `getAddress`,
`recoverPublicKey`). -/

/-- Resolution of an omitted `compressed` flag. -/
def resolveCompressedFlag (copt : Option Bool) : Bool := copt.getD true

/-- The `Signer` constructor with an optional `compressed` flag. -/
def signerNew (dp : Nat → Bool → List Nat) (da : List Nat → String)
    (input : PrivateKeyInput) (copt : Option Bool) :
    Except KeyError KeyMaterial :=
  deriveKeyMaterial dp da input (resolveCompressedFlag copt)

/-- `Signer.fromWif` with an optional `compressed` flag for the resulting
signer. -/
def fromWifOpt (H : List Nat → List Nat) (s : String) (copt : Option Bool) :
    Except EncodingError (Nat × Bool) :=
  match fromWif H s with
  | .ok (k, _) => .ok (k, resolveCompressedFlag copt)
  | .error e => .error e

/-- `Signer.fromSeed` with an optional `compressed` flag: the seed maps to
a scalar through the pinned one-way hash reduced modulo the curve order
(spec section 4.5). -/
def fromSeedOpt (hash : String → Nat) (dp : Nat → Bool → List Nat)
    (da : List Nat → String) (seed : String) (copt : Option Bool) :
    Except KeyError KeyMaterial :=
  deriveKeyMaterial dp da (.big (hash seed % curveOrder)) (resolveCompressedFlag copt)

/-- `Signer.getAddress` with an optional `compressed` flag: derive the
address from the compressed (default) or uncompressed public key. -/
def getAddress (dp : Nat → Bool → List Nat) (da : List Nat → String)
    (k : Nat) (copt : Option Bool) : String :=
  da (dp k (resolveCompressedFlag copt))

/-- `Signer.recoverPublicKey` with an optional `compressed` flag. -/
def recoverPublicKeyOpt {P : Type} [AddCommGroup P] {n : Nat}
    (serialize : P → Bool → List Nat) (G : P) (cands : ZMod n → List P)
    (z : ZMod n) (sig : CompactSignature n) (copt : Option Bool) :
    Option (List Nat) :=
  recoverPublicKey serialize G cands z sig (resolveCompressedFlag copt)

/-- `Signer.recoverAddress` with an optional `compressed` flag. -/
def recoverAddressOpt {P : Type} [AddCommGroup P] {n : Nat}
    (serialize : P → Bool → List Nat) (deriveAddr : List Nat → String)
    (G : P) (cands : ZMod n → List P) (z : ZMod n)
    (sig : CompactSignature n) (copt : Option Bool) : Option String :=
  recoverAddress serialize deriveAddr G cands z sig (resolveCompressedFlag copt)

/-! ## Binary codec

Modelled from the spec (sections 3, 4.1, 4.3): a schema registry of named
message types; fields carry a wire type, a field number, an
optional/repeated rule and an optional oneof group; values are JSON-like
records with one named entry per schema field.  The wire format is
length-prefixed and tag-typed: every wire item is a varint tag
`fieldNumber * 8 + wireType` followed by a varint scalar or a
length-prefixed byte string.  Nested message fields recurse with the
nested schema and travel as length-prefixed bytes on the wire; at the wire
level they are covered by the byte-string form. -/

/-- Modelled from the spec (section 7): codec errors. -/
inductive CodecError where
  | UnknownType
  | FieldTypeMismatch
  | MalformedEncoding
  | TruncatedInput
  | AmbiguousOneof
deriving DecidableEq

/-- A wire scalar value: a varint or a length-prefixed byte string. -/
inductive WireVal where
  | vint (n : Nat)
  | vbytes (bs : List Nat)
deriving DecidableEq

/-- A field's wire type. -/
inductive FType where
  | uintT
  | bytesT
deriving DecidableEq

/-- Modelled from the spec (section 3): a field definition. -/
structure FieldDef where
  name : String
  ftype : FType
  fieldNumber : Nat
  repeatedRule : Bool
  oneofGroup : Option String
deriving DecidableEq

/-- Modelled from the spec (section 3): a message type schema — the ordered
list of its field definitions. -/
structure TypeSchema where
  fields : List FieldDef
deriving DecidableEq

/-- Modelled from the spec (section 4.1): the schema registry. -/
abbrev SchemaRegistry := List (String × TypeSchema)

/-- Modelled from the spec (section 4.1): `resolve(typeName)`; `none` means
`UnknownType`. -/
def resolve (reg : SchemaRegistry) (typeName : String) : Option TypeSchema :=
  match reg.find? (fun e => e.1 == typeName) with
  | some e => some e.2
  | none => none

/-- A field value inside a message value: absent, a single scalar, or a
sequence for a repeated field. -/
inductive FieldVal where
  | absent
  | single (w : WireVal)
  | many (ws : List WireVal)
deriving DecidableEq

/-- A JSON-like message value: one named entry per schema field, in schema
order. -/
abbrev MessageVal := List (String × FieldVal)

/-- Varint encoding: little-endian base 128 with continuation bits, with
structural fuel (`fuel ≥ n` always suffices). -/
def encodeVarintAux : Nat → Nat → List Nat
  | 0, n => [n % 128]
  | fuel + 1, n =>
    if n < 128 then [n] else (n % 128 + 128) :: encodeVarintAux fuel (n / 128)

def encodeVarint (n : Nat) : List Nat := encodeVarintAux n n

/-- Varint decoding; returns the value and the unconsumed tail. -/
def decodeVarint : List Nat → Option (Nat × List Nat)
  | [] => none
  | b :: rest =>
    if b < 128 then some (b, rest)
    else
      match decodeVarint rest with
      | some (n, r) => some ((b - 128) + 128 * n, r)
      | none => none

/-- Wire-type tag bits of a field type. -/
def wireType : FType → Nat
  | .uintT => 0
  | .bytesT => 2

/-- The tag of a wire item: `fieldNumber * 8 + wireType`, varint-encoded. -/
def encodeTag (fn : Nat) (ft : FType) : List Nat := encodeVarint (fn * 8 + wireType ft)

/-- Encode one wire value: a varint, or a varint length prefix followed by
the raw bytes. -/
def encodeWireVal : WireVal → List Nat
  | .vint n => encodeVarint n
  | .vbytes bs => encodeVarint bs.length ++ bs

/-- The wire items contributed by one field value: none for an absent
field, one for a present scalar, one per element of a repeated field (in
order). -/
def wireItems : FieldVal → List WireVal
  | .absent => []
  | .single w => [w]
  | .many ws => ws

/-- Encode one field: one tagged wire item per entry of `wireItems` — an
absent field and an empty repeated field are both omitted entirely. -/
def encodeFieldEntry (fd : FieldDef) (fv : FieldVal) : List Nat :=
  ((wireItems fv).map (fun w => encodeTag fd.fieldNumber fd.ftype ++ encodeWireVal w)).flatten

/-- Encode the fields of a message in schema order. -/
def encodeFields : List FieldDef → MessageVal → List Nat
  | fd :: fds, (_, fv) :: vs => encodeFieldEntry fd fv ++ encodeFields fds vs
  | _, _ => []

/-- Number of populated members of oneof group `g`. -/
def populatedInGroup (g : String) : List FieldDef → MessageVal → Nat
  | fd :: fds, (_, fv) :: vs =>
    (if fd.oneofGroup = some g ∧ fv ≠ .absent then 1 else 0)
      + populatedInGroup g fds vs
  | _, _ => 0

/-- The oneof groups appearing in a schema. -/
def oneofGroups (fields : List FieldDef) : List String :=
  (fields.filterMap (fun fd => fd.oneofGroup)).dedup

/-- Modelled from the spec (section 4.3): more than one member of the same
oneof group is populated. -/
def ambiguousOneof (sch : TypeSchema) (v : MessageVal) : Bool :=
  (oneofGroups sch.fields).any (fun g => 2 ≤ populatedInGroup g sch.fields v)

/-- Modelled from the spec (section 4.3): encode a message value — fails
with `AmbiguousOneof` when more than one member of a oneof group is
populated; otherwise the fields are encoded in schema order. -/
def encodeMessage (sch : TypeSchema) (v : MessageVal) : Except CodecError (List Nat) :=
  if ambiguousOneof sch v then .error .AmbiguousOneof
  else .ok (encodeFields sch.fields v)

/-- The initial decode state: every repeated field starts as the empty
sequence, every optional field as absent. -/
def initMessage (fields : List FieldDef) : MessageVal :=
  fields.map (fun fd => (fd.name, if fd.repeatedRule then FieldVal.many [] else FieldVal.absent))

/-- Look up a field definition by field number. -/
def findFieldNum (fields : List FieldDef) (fn : Nat) : Option FieldDef :=
  fields.find? (fun fd => fd.fieldNumber == fn)

/-- Record one decoded wire item into the message value under construction:
dispatch by field number; repeated fields accumulate in order, others take
the last value seen. -/
def addWire : List FieldDef → MessageVal → Nat → WireVal → MessageVal
  | fd :: fds, (nm, fv) :: vs, fn, w =>
    if fd.fieldNumber = fn then
      (nm, match fv with
           | .many ws => .many (ws ++ [w])
           | _ => .single w) :: vs
    else (nm, fv) :: addWire fds vs fn w
  | _, v, _, _ => v

/-- Decode the payload of one wire item according to the field type;
`none` means `TruncatedInput`. -/
def decodeWirePayload (ft : FType) (bytes : List Nat) : Option (WireVal × List Nat) :=
  match ft with
  | .uintT =>
    match decodeVarint bytes with
    | some (n, r) => some (.vint n, r)
    | none => none
  | .bytesT =>
    match decodeVarint bytes with
    | some (len, r) =>
      if len ≤ r.length then some (.vbytes (r.take len), r.drop len) else none
    | none => none

/-- The decode loop: read a tag, dispatch by field number, parse the
payload, accumulate; `fuel` bounds the number of wire items (the byte
count always suffices since every item consumes at least one byte). -/
def decodeFieldsAux (fields : List FieldDef) :
    Nat → List Nat → MessageVal → Except CodecError MessageVal
  | _, [], acc => .ok acc
  | 0, _ :: _, _ => .error .TruncatedInput
  | fuel + 1, b :: bytes, acc =>
    match decodeVarint (b :: bytes) with
    | none => .error .TruncatedInput
    | some (tag, r1) =>
      match findFieldNum fields (tag / 8) with
      | none => .error .FieldTypeMismatch
      | some fd =>
        if wireType fd.ftype = tag % 8 then
          match decodeWirePayload fd.ftype r1 with
          | some (w, r2) => decodeFieldsAux fields fuel r2 (addWire fields acc (tag / 8) w)
          | none => .error .TruncatedInput
        else .error .FieldTypeMismatch

/-- Modelled from the spec (section 4.3): decode wire bytes into a fully
formed message value, or fail. -/
def decodeMessage (sch : TypeSchema) (bytes : List Nat) :
    Except CodecError MessageVal :=
  decodeFieldsAux sch.fields bytes.length bytes (initMessage sch.fields)

/-- Modelled from the spec (section 6): `encode(value, typeName)` against a
schema registry. -/
def encode (reg : SchemaRegistry) (typeName : String) (v : MessageVal) :
    Except CodecError (List Nat) :=
  match resolve reg typeName with
  | none => .error .UnknownType
  | some sch => encodeMessage sch v

/-- Modelled from the spec (section 6): `decode(bytes, typeName)` against a
schema registry. -/
def decode (reg : SchemaRegistry) (typeName : String) (bytes : List Nat) :
    Except CodecError MessageVal :=
  match resolve reg typeName with
  | none => .error .UnknownType
  | some sch => decodeMessage sch bytes

/-- A wire value matches a field type. -/
def typeOk : FType → WireVal → Prop
  | .uintT, .vint _ => True
  | .bytesT, .vbytes _ => True
  | _, _ => False

/-- A field value matches its field definition (lax form: an absent field
is allowed for both optional and repeated fields). -/
def laxFieldOk (fd : FieldDef) : FieldVal → Prop
  | .absent => True
  | .single w => fd.repeatedRule = false ∧ typeOk fd.ftype w
  | .many ws => fd.repeatedRule = true ∧ ∀ w ∈ ws, typeOk fd.ftype w

/-- A message value matches a field list: entry names and shapes line up
with the schema, in order. -/
def laxMatch : List FieldDef → MessageVal → Prop
  | [], [] => True
  | fd :: fds, (nm, fv) :: vs => nm = fd.name ∧ laxFieldOk fd fv ∧ laxMatch fds vs
  | _, _ => False

/-- Canonical form: like `laxMatch`, and repeated fields are sequences
(`many`, possibly empty), never absent. -/
def canonMatch : List FieldDef → MessageVal → Prop
  | [], [] => True
  | fd :: fds, (nm, fv) :: vs =>
    nm = fd.name ∧ laxFieldOk fd fv ∧ (fd.repeatedRule = true → fv ≠ .absent)
      ∧ canonMatch fds vs
  | _, _ => False

/-- Canonicalization: an absent repeated field becomes the empty sequence;
everything else is unchanged. -/
def canonicalizeFields : List FieldDef → MessageVal → MessageVal
  | fd :: fds, (nm, fv) :: vs =>
    (nm, if fd.repeatedRule = true ∧ fv = .absent then .many [] else fv)
      :: canonicalizeFields fds vs
  | _, v => v

/-- Total number of wire items contributed by a message value. -/
def itemCount : MessageVal → Nat
  | [] => 0
  | (_, fv) :: vs => (wireItems fv).length + itemCount vs

/-- Replay the wire items of a value list into a decode state, field by
field (the decode loop's net effect on its accumulator). -/
def applyFields (F : List FieldDef) :
    MessageVal → List FieldDef → MessageVal → MessageVal
  | acc, fd :: fds, (_, fv) :: vs =>
    applyFields F ((wireItems fv).foldl (fun a w => addWire F a fd.fieldNumber w) acc) fds vs
  | acc, _, _ => acc

/-! ## Pinned protocol hash functions and curve

Modelled from the spec (sections 4.4, 4.5, 9): the spec pins the digest
algorithm and curve parameters to the target network's actual parameters —
SHA-256, RIPEMD-160 and secp256k1 for this protocol.  They are implemented
here concretely (32-bit words as `Nat` with explicit reductions, structural
fuel everywhere) so the golden seed-to-address scenario evaluates inside
the kernel.  The SHA-256 round constants are computed as the fractional
parts of the cube and square roots of the first primes, per the standard.
-/

/-- Bitwise exclusive or on 32-bit words (operands reduced mod `2^32`). -/
def xor32 (a b : Nat) : Nat := Nat.xor (a % 4294967296) (b % 4294967296)

/-- Bitwise conjunction on 32-bit words (operands reduced mod `2^32`). -/
def and32 (a b : Nat) : Nat := Nat.land (a % 4294967296) (b % 4294967296)

/-- Bitwise disjunction on 32-bit words (operands reduced mod `2^32`). -/
def or32 (a b : Nat) : Nat := Nat.lor (a % 4294967296) (b % 4294967296)

def not32 (a : Nat) : Nat := 4294967295 - a % 4294967296

def add32 (a b : Nat) : Nat := (a + b) % 4294967296

def rotl32 (x s : Nat) : Nat :=
  (x % 4294967296 * 2 ^ s + x % 4294967296 / 2 ^ (32 - s)) % 4294967296

def rotr32 (x s : Nat) : Nat := rotl32 x (32 - s)

def shr32 (x s : Nat) : Nat := x % 4294967296 / 2 ^ s

/-- Integer `k`-th root by bisection (`lo` maintains `lo^k ≤ m < hi^k`). -/
def irootAux (k m : Nat) : Nat → Nat → Nat → Nat
  | 0, lo, _ => lo
  | fuel + 1, lo, hi =>
    let mid := (lo + hi) / 2
    if mid = lo then lo
    else if mid ^ k ≤ m then irootAux k m fuel mid hi
    else irootAux k m fuel lo mid

def iroot (k m : Nat) : Nat := irootAux k m 400 0 (m + 2)

/-- `floor(2^32 * p^(1/k)) mod 2^32`: the fractional root constants of the
SHA-256 standard. -/
def fracRoot32 (k p : Nat) : Nat := iroot k (p * 2 ^ (32 * k)) % 4294967296

/-- The first 64 primes. -/
def primes64 : List Nat :=
  [2, 3, 5, 7, 11, 13, 17, 19, 23, 29, 31, 37, 41, 43, 47, 53,
   59, 61, 67, 71, 73, 79, 83, 89, 97, 101, 103, 107, 109, 113, 127, 131,
   137, 139, 149, 151, 157, 163, 167, 173, 179, 181, 191, 193, 197, 199, 211, 223,
   227, 229, 233, 239, 241, 251, 257, 263, 269, 271, 277, 281, 283, 293, 307, 311]

def sha256K : List Nat := primes64.map (fun p => fracRoot32 3 p)

def sha256H0 : List Nat := (primes64.take 8).map (fun p => fracRoot32 2 p)

/-- Big-endian 32-bit words of a byte string (groups of 4). -/
def wordsBE : List Nat → List Nat
  | b0 :: b1 :: b2 :: b3 :: rest =>
    (((b0 * 256 + b1) * 256 + b2) * 256 + b3) :: wordsBE rest
  | _ => []

/-- Little-endian 32-bit words of a byte string (groups of 4). -/
def wordsLE : List Nat → List Nat
  | b0 :: b1 :: b2 :: b3 :: rest =>
    (((b3 * 256 + b2) * 256 + b1) * 256 + b0) :: wordsLE rest
  | _ => []

def wordToBytesBE (w : Nat) : List Nat :=
  [w / 16777216 % 256, w / 65536 % 256, w / 256 % 256, w % 256]

def wordToBytesLE (w : Nat) : List Nat :=
  [w % 256, w / 256 % 256, w / 65536 % 256, w / 16777216 % 256]

def chunks64Aux : Nat → List Nat → List (List Nat)
  | 0, _ => []
  | _, [] => []
  | fuel + 1, l => l.take 64 :: chunks64Aux fuel (l.drop 64)

def chunks64 (l : List Nat) : List (List Nat) := chunks64Aux l.length l

/-- Merkle-Damgård padding: `0x80`, zeros, then the 64-bit bit length
(big-endian for SHA-256). -/
def sha256Pad (msg : List Nat) : List Nat :=
  msg ++ 128 :: List.replicate ((64 - (msg.length + 9) % 64) % 64) 0
    ++ natToBytesFixed 8 (8 * msg.length)

def ssig0 (x : Nat) : Nat := xor32 (xor32 (rotr32 x 7) (rotr32 x 18)) (shr32 x 3)

def ssig1 (x : Nat) : Nat := xor32 (xor32 (rotr32 x 17) (rotr32 x 19)) (shr32 x 10)

def bsig0 (x : Nat) : Nat := xor32 (xor32 (rotr32 x 2) (rotr32 x 13)) (rotr32 x 22)

def bsig1 (x : Nat) : Nat := xor32 (xor32 (rotr32 x 6) (rotr32 x 11)) (rotr32 x 25)

def chF (x y z : Nat) : Nat := xor32 (and32 x y) (and32 (not32 x) z)

def majF (x y z : Nat) : Nat := xor32 (xor32 (and32 x y) (and32 x z)) (and32 y z)

/-- The SHA-256 message schedule: extend 16 words to 64. -/
def sha256Schedule (w16 : List Nat) : List Nat :=
  (List.range 48).foldl (fun W _ =>
    W ++ [add32 (add32 (ssig1 (W.getD (W.length - 2) 0)) (W.getD (W.length - 7) 0))
      (add32 (ssig0 (W.getD (W.length - 15) 0)) (W.getD (W.length - 16) 0))]) w16

/-- One SHA-256 compression round over an 8-word state. -/
def sha256Round (W : List Nat) (st : List Nat) (t : Nat) : List Nat :=
  match st with
  | [a, b, c, d, e, f, g, h] =>
    let T1 := add32 (add32 (add32 h (bsig1 e))
      (add32 (chF e f g) (sha256K.getD t 0))) (W.getD t 0)
    let T2 := add32 (bsig0 a) (majF a b c)
    [add32 T1 T2, a, b, c, add32 d T1, e, f, g]
  | other => other

/-- SHA-256 compression of one 64-byte block into the running hash. -/
def sha256Compress (H : List Nat) (block : List Nat) : List Nat :=
  let W := sha256Schedule (wordsBE block)
  List.zipWith add32 H ((List.range 64).foldl (sha256Round W) H)

/-- SHA-256 of a byte string. -/
def sha256 (msg : List Nat) : List Nat :=
  (((chunks64 (sha256Pad msg)).foldl sha256Compress sha256H0).map wordToBytesBE).flatten

/-- The RIPEMD-160 byte-order permutation `ρ`. -/
def rmdRho : List Nat := [7, 4, 13, 1, 10, 6, 15, 3, 12, 0, 9, 5, 2, 14, 11, 8]

/-- `ρ^k` as an index list. -/
def rmdPermPow : Nat → List Nat
  | 0 => List.range 16
  | k + 1 => (rmdPermPow k).map (fun j => rmdRho.getD j 0)

/-- The RIPEMD-160 permutation `π(i) = 9·i + 5 mod 16`. -/
def rmdPi : List Nat := (List.range 16).map (fun i => (9 * i + 5) % 16)

/-- Left-line message order: round `k` uses `ρ^k`. -/
def rmdRL (k : Nat) : List Nat := rmdPermPow k

/-- Right-line message order: round `k` uses `ρ^k ∘ π`. -/
def rmdRR (k : Nat) : List Nat := rmdPi.map (fun j => (rmdPermPow k).getD j 0)

/-- Left-line rotation amounts. -/
def rmdSL : List (List Nat) :=
  [[11, 14, 15, 12, 5, 8, 7, 9, 11, 13, 14, 15, 6, 7, 9, 8],
   [7, 6, 8, 13, 11, 9, 7, 15, 7, 12, 15, 9, 11, 7, 13, 12],
   [11, 13, 6, 7, 14, 9, 13, 15, 14, 8, 13, 6, 5, 12, 7, 5],
   [11, 12, 14, 15, 14, 15, 9, 8, 9, 14, 5, 6, 8, 6, 5, 12],
   [9, 15, 5, 11, 6, 8, 13, 12, 5, 12, 13, 14, 11, 8, 5, 6]]

/-- Right-line rotation amounts. -/
def rmdSR : List (List Nat) :=
  [[8, 9, 9, 11, 13, 15, 15, 5, 7, 7, 8, 11, 14, 14, 12, 6],
   [9, 13, 15, 7, 12, 8, 9, 11, 7, 7, 12, 7, 6, 15, 13, 11],
   [9, 7, 15, 11, 8, 6, 6, 14, 12, 13, 5, 14, 13, 13, 7, 5],
   [15, 5, 8, 11, 14, 14, 6, 14, 6, 9, 12, 9, 12, 5, 15, 8],
   [8, 5, 12, 9, 12, 5, 14, 6, 8, 13, 6, 5, 15, 13, 11, 11]]

/-- Left-line round constants: `0` and the fractional square roots of the
first primes scaled by `2^30`. -/
def rmdKL : List Nat := [0, iroot 2 (2 * 2 ^ 60), iroot 2 (3 * 2 ^ 60),
  iroot 2 (5 * 2 ^ 60), iroot 2 (7 * 2 ^ 60)]

/-- Right-line round constants: the fractional cube roots of the first
primes scaled by `2^30`, and `0`. -/
def rmdKR : List Nat := [iroot 3 (2 * 2 ^ 90), iroot 3 (3 * 2 ^ 90),
  iroot 3 (5 * 2 ^ 90), iroot 3 (7 * 2 ^ 90), 0]

/-- The RIPEMD-160 selection functions `f₁..f₅` by round index. -/
def rmdF (j x y z : Nat) : Nat :=
  if j < 16 then xor32 (xor32 x y) z
  else if j < 32 then or32 (and32 x y) (and32 (not32 x) z)
  else if j < 48 then xor32 (or32 x (not32 y)) z
  else if j < 64 then or32 (and32 x z) (and32 y (not32 z))
  else xor32 x (or32 y (not32 z))

def rmdH0 : List Nat :=
  [0x67452301, 0xEFCDAB89, 0x98BADCFE, 0x10325476, 0xC3D2E1F0]

/-- RIPEMD-160 padding: like SHA-256 but with a little-endian bit length. -/
def rmdPad (msg : List Nat) : List Nat :=
  msg ++ 128 :: List.replicate ((64 - (msg.length + 9) % 64) % 64) 0
    ++ (natToBytesFixed 8 (8 * msg.length)).reverse

/-- One RIPEMD-160 round over the ten-word two-line state. -/
def rmdRound (X : List Nat) (st : List Nat) (j : Nat) : List Nat :=
  match st with
  | [al, bl, cl, dl, el, ar, br, cr, dr, er] =>
    let rnd := j / 16
    let tl := add32
      (rotl32 (add32 (add32 al (rmdF j bl cl dl))
        (add32 (X.getD ((rmdRL rnd).getD (j % 16) 0) 0) (rmdKL.getD rnd 0)))
        ((rmdSL.getD rnd []).getD (j % 16) 0)) el
    let tr := add32
      (rotl32 (add32 (add32 ar (rmdF (79 - j) br cr dr))
        (add32 (X.getD ((rmdRR rnd).getD (j % 16) 0) 0) (rmdKR.getD rnd 0)))
        ((rmdSR.getD rnd []).getD (j % 16) 0)) er
    [el, tl, bl, rotl32 cl 10, dl, er, tr, br, rotl32 cr 10, dr]
  | other => other

/-- RIPEMD-160 compression of one 64-byte block. -/
def rmdCompress (h : List Nat) (block : List Nat) : List Nat :=
  let X := wordsLE block
  match (List.range 80).foldl (rmdRound X) (h ++ h) with
  | [al, bl, cl, dl, el, ar, br, cr, dr, er] =>
    [add32 (h.getD 1 0) (add32 cl dr),
     add32 (h.getD 2 0) (add32 dl er),
     add32 (h.getD 3 0) (add32 el ar),
     add32 (h.getD 4 0) (add32 al br),
     add32 (h.getD 0 0) (add32 bl cr)]
  | other => other

/-- RIPEMD-160 of a byte string. -/
def ripemd160 (msg : List Nat) : List Nat :=
  (((chunks64 (rmdPad msg)).foldl rmdCompress rmdH0).map wordToBytesLE).flatten

/-- The secp256k1 field prime. -/
def secpP : Nat :=
  0xfffffffffffffffffffffffffffffffffffffffffffffffffffffffefffffc2f

/-- The secp256k1 base point. -/
def secpGx : Nat :=
  0x79be667ef9dcbbac55a06295ce870b07029bfcdb2dce28d959f2815b16f81798

def secpGy : Nat :=
  0x483ada7726a3c4655da4fbfc0e1108a8fd17b448a68554199c47d08ffb10d4b8

/-- Fast modular exponentiation with structural fuel on the bit count. -/
def powModAux (m : Nat) : Nat → Nat → Nat → Nat
  | 0, _, _ => 1 % m
  | fuel + 1, b, e =>
    if e = 0 then 1 % m
    else
      let r := powModAux m fuel (b * b % m) (e / 2)
      if e % 2 = 1 then b * r % m else r

def powMod (m b e : Nat) : Nat := powModAux m 300 (b % m) e

/-- Modular inverse in the secp256k1 field by Fermat exponentiation. -/
def invMod (a : Nat) : Nat := powMod secpP a (secpP - 2)

/-- An affine secp256k1 point; `none` is the point at infinity. -/
abbrev ECPoint := Option (Nat × Nat)

def subMod (m a b : Nat) : Nat := (a + (m - b % m)) % m

/-- Affine point addition on secp256k1. -/
def ecAdd : ECPoint → ECPoint → ECPoint
  | none, Q => Q
  | P, none => P
  | some (x1, y1), some (x2, y2) =>
    if x1 = x2 then
      if (y1 + y2) % secpP = 0 then none
      else
        let lam := 3 * x1 * x1 % secpP * invMod (2 * y1 % secpP) % secpP
        let x3 := subMod secpP (lam * lam) (x1 + x2)
        some (x3, subMod secpP (lam * subMod secpP x1 x3) y1)
    else
      let lam := subMod secpP y2 y1 * invMod (subMod secpP x2 x1) % secpP
      let x3 := subMod secpP (lam * lam) (x1 + x2)
      some (x3, subMod secpP (lam * subMod secpP x1 x3) y1)

/-- A Jacobian-coordinate point `(X, Y, Z)` representing the affine point
`(X / Z^2, Y / Z^3)`, with `Z = 0` for the point at infinity.  Jacobian
coordinates avoid a field inversion at every group operation; one inversion
at the end converts back to affine form. -/
abbrev JacPoint := Nat × Nat × Nat

/-- Jacobian point doubling on secp256k1 (`a = 0` doubling formulas); a
point with `Y ≡ 0` or `Z ≡ 0` doubles to the point at infinity (`Z3 = 0`). -/
def jacDouble : JacPoint → JacPoint
  | (x1, y1, z1) =>
    let a := x1 * x1 % secpP
    let b := y1 * y1 % secpP
    let c := b * b % secpP
    let d := 2 * subMod secpP ((x1 + b) * (x1 + b)) (a + c) % secpP
    let e := 3 * a % secpP
    let f := e * e % secpP
    let x3 := subMod secpP f (2 * d)
    let y3 := subMod secpP (e * subMod secpP d x3) (8 * c)
    let z3 := 2 * y1 % secpP * z1 % secpP
    (x3, y3, z3)

/-- Jacobian point addition on secp256k1, with the degenerate cases
(either operand at infinity, equal or opposite points) handled explicitly. -/
def jacAdd : JacPoint → JacPoint → JacPoint
  | (x1, y1, z1), (x2, y2, z2) =>
    if z1 % secpP = 0 then (x2, y2, z2)
    else if z2 % secpP = 0 then (x1, y1, z1)
    else
      let zz1 := z1 * z1 % secpP
      let zz2 := z2 * z2 % secpP
      let u1 := x1 * zz2 % secpP
      let u2 := x2 * zz1 % secpP
      let s1 := y1 * (zz2 * z2 % secpP) % secpP
      let s2 := y2 * (zz1 * z1 % secpP) % secpP
      if u1 = u2 then
        if s1 = s2 then jacDouble (x1, y1, z1) else (1, 1, 0)
      else
        let h := subMod secpP u2 u1
        let i := 4 * h % secpP * h % secpP
        let j := h * i % secpP
        let r := 2 * subMod secpP s2 s1 % secpP
        let v := u1 * i % secpP
        let x3 := subMod secpP (r * r) (j + 2 * v)
        let y3 := subMod secpP (r * subMod secpP v x3) (2 * s1 % secpP * j)
        let z3 := 2 * z1 % secpP * z2 % secpP * h % secpP
        (x3, y3, z3)

/-- Double-and-add scalar multiplication in Jacobian coordinates, fuel on
the bit count. -/
def jacMulAux : Nat → Nat → JacPoint → JacPoint → JacPoint
  | 0, _, _, acc => acc
  | fuel + 1, k, base, acc =>
    if k = 0 then acc
    else jacMulAux fuel (k / 2) (jacDouble base)
      (if k % 2 = 1 then jacAdd acc base else acc)

/-- Conversion from Jacobian back to affine coordinates: the one field
inversion of the whole scalar multiplication. -/
def jacToAffine : JacPoint → ECPoint
  | (x, y, z) =>
    if z % secpP = 0 then none
    else
      let zi := invMod z
      let zi2 := zi * zi % secpP
      some (x * zi2 % secpP, y * (zi2 * zi % secpP) % secpP)

/-- Scalar multiplication on secp256k1, computed by double-and-add over
Jacobian coordinates with one final inversion back to affine form. -/
def ecMul (k : Nat) (P : ECPoint) : ECPoint :=
  match P with
  | none => none
  | some (x, y) => jacToAffine (jacMulAux 257 k (x, y, 1) (1, 1, 0))

/-- Modelled from the spec (section 4.5): `derivePublicKey` over the pinned
curve — scalar multiplication of the base point, serialized in compressed
(33-byte) or uncompressed (65-byte) form. -/
def derivePublicKeyBytes (k : Nat) (compressed : Bool) : List Nat :=
  match ecMul k (some (secpGx, secpGy)) with
  | none => []
  | some (x, y) =>
    if compressed then (if y % 2 = 0 then 2 else 3) :: natToBytesFixed 32 x
    else 4 :: (natToBytesFixed 32 x ++ natToBytesFixed 32 y)

/-- The UTF-8 bytes of an ASCII string. -/
def strBytes (s : String) : List Nat := s.data.map Char.toNat

/-- Modelled from the spec (section 4.5): `deriveAddress` — hash the public
key bytes with the two-stage digest (SHA-256 then RIPEMD-160), prepend the
network version byte `0x00`, append the 4-byte double-SHA-256 checksum,
and Base58-encode the whole. -/
def deriveAddress (publicKeyBytes : List Nat) : String :=
  base58CheckEncode sha256 (0 :: ripemd160 (sha256 publicKeyBytes))

/-- Modelled from the spec (section 4.5): `fromSeed` — the seed string maps
to a private scalar via the pinned one-way hash (SHA-256) reduced modulo
the curve order. -/
def fromSeed (seed : String) : Nat :=
  digitsToNat 256 (sha256 (strBytes seed)) % curveOrder

/-- `Signer.fromSeed(seed).getAddress()`: the address of the compressed
public key derived from the seed scalar. -/
def fromSeedAddress (seed : String) : String :=
  deriveAddress (derivePublicKeyBytes (fromSeed seed) true)

theorem getLast?_cons_of_ne (x : Nat) (l : List Nat) (h : l ≠ []) :
    (x :: l).getLast? = l.getLast? := by
  cases l with
  | nil => exact absurd rfl h
  | cons a t => exact List.getLast?_cons_cons

theorem valLE_append_singleton (base d : Nat) (l : List Nat) :
    valLE base (l ++ [d]) = valLE base l + d * base ^ l.length := by
  induction l with
  | nil => simp [valLE]
  | cons e tl ih =>
    have hc : (e :: tl) ++ [d] = e :: (tl ++ [d]) := rfl
    rw [hc]
    simp only [valLE, ih, List.length_cons]
    ring

theorem digitsToNat_eq_valLE_reverse (base : Nat) (ds : List Nat) :
    digitsToNat base ds = valLE base ds.reverse := by
  suffices h : ∀ (l : List Nat) (acc : Nat),
      l.foldl (fun acc d => acc * base + d) acc = valLE base l.reverse + acc * base ^ l.length by
    simpa using h ds 0
  intro l
  induction l with
  | nil => simp [valLE]
  | cons d tl ih =>
    intro acc
    simp only [List.foldl_cons, List.reverse_cons, List.length_cons, ih,
      valLE_append_singleton, List.length_reverse]
    ring

theorem valLE_natToDigitsAux (base : Nat) (hb : 2 ≤ base) :
    ∀ fuel n, n ≤ fuel → valLE base (natToDigitsAux base fuel n) = n := by
  intro fuel
  induction fuel with
  | zero => intro n hn; interval_cases n; simp [natToDigitsAux, valLE]
  | succ f ih =>
    intro n hn
    match n with
    | 0 => simp [natToDigitsAux, valLE]
    | m + 1 =>
      have hdiv : (m + 1) / base ≤ f := by
        have h1 : (m + 1) / base ≤ (m + 1) / 2 := Nat.div_le_div_left hb (by omega)
        have h2 : (m + 1) / 2 ≤ m := by omega
        omega
      simp only [natToDigitsAux, valLE, ih _ hdiv]
      exact Nat.mod_add_div (m + 1) base

theorem digitsToNat_natToDigits (base : Nat) (hb : 2 ≤ base) (n : Nat) :
    digitsToNat base (natToDigits base n) = n := by
  rw [natToDigits, digitsToNat_eq_valLE_reverse, List.reverse_reverse]
  exact valLE_natToDigitsAux base hb n n le_rfl

/-- All digits produced by the little-endian extraction are `< base`. -/
theorem natToDigitsAux_lt (base : Nat) (hb : 2 ≤ base) :
    ∀ fuel n, ∀ d ∈ natToDigitsAux base fuel n, d < base := by
  intro fuel
  induction fuel with
  | zero =>
    intro n d hd
    match n with
    | 0 => simp [natToDigitsAux] at hd
    | _ + 1 => simp [natToDigitsAux] at hd
  | succ f ih =>
    intro n d hd
    match n with
    | 0 => simp [natToDigitsAux] at hd
    | m + 1 =>
      simp only [natToDigitsAux, List.mem_cons] at hd
      rcases hd with h | h
      · subst h; exact Nat.mod_lt _ (by omega)
      · exact ih _ _ h

/-- The most-significant digit of a nonzero extraction is nonzero: the
little-endian digit list never ends with `0`. -/
theorem natToDigitsAux_getLast (base : Nat) (hb : 2 ≤ base) :
    ∀ fuel n, n ≤ fuel → natToDigitsAux base fuel n ≠ [] →
      (natToDigitsAux base fuel n).getLast? ≠ some 0 := by
  intro fuel
  induction fuel with
  | zero =>
    intro n hn
    interval_cases n
    simp [natToDigitsAux]
  | succ f ih =>
    intro n hn hne
    match n with
    | 0 => simp [natToDigitsAux] at hne
    | m + 1 =>
      have hdiv : (m + 1) / base ≤ f := by
        have h1 : (m + 1) / base ≤ (m + 1) / 2 := Nat.div_le_div_left hb (by omega)
        have h2 : (m + 1) / 2 ≤ m := by omega
        omega
      simp only [natToDigitsAux] at hne ⊢
      by_cases hz : natToDigitsAux base f ((m + 1) / base) = []
      · rw [hz]
        have hmod : (m + 1) % base ≠ 0 := by
          intro h0
          have hv := valLE_natToDigitsAux base hb f ((m + 1) / base) hdiv
          rw [hz] at hv
          simp only [valLE] at hv
          have hmd := Nat.mod_add_div (m + 1) base
          have hv3 : (m + 1) / base = 0 := by omega
          rw [hv3] at hmd
          simp at hmd
          omega
        simp [List.getLast?]
        omega
      · rw [getLast?_cons_of_ne _ _ hz]
        exact ih _ hdiv hz

theorem valLE_pos (base : Nat) (hb : 2 ≤ base) :
    ∀ l : List Nat, l ≠ [] → l.getLast? ≠ some 0 → 0 < valLE base l := by
  intro l
  induction l with
  | nil => intro h; exact absurd rfl h
  | cons d tl ih =>
    intro _ hlast
    by_cases htl : tl = []
    · subst htl
      simp [List.getLast?] at hlast
      simp [valLE]
      omega
    · have := ih htl (by rwa [getLast?_cons_of_ne _ _ htl] at hlast)
      simp only [valLE]
      have hbpos : 0 < base := by omega
      positivity

/-- Canonical little-endian digit lists (digits `< base`, no trailing zero)
are recovered exactly from their value. -/
theorem natToDigitsAux_valLE (base : Nat) (hb : 2 ≤ base) :
    ∀ (l : List Nat) fuel, valLE base l ≤ fuel → (∀ d ∈ l, d < base) →
      l.getLast? ≠ some 0 → natToDigitsAux base fuel (valLE base l) = l := by
  intro l
  induction l with
  | nil =>
    intro fuel _ _ _
    match fuel with
    | 0 => simp [natToDigitsAux, valLE]
    | _ + 1 => simp [natToDigitsAux, valLE]
  | cons d tl ih =>
    intro fuel hfuel hlt hlast
    have hdlt : d < base := hlt d (List.mem_cons_self d tl)
    have htlast : tl.getLast? ≠ some 0 := by
      cases tl with
      | nil => simp
      | cons e l2 =>
        rw [List.getLast?_cons_cons] at hlast
        exact hlast
    have hpos : 0 < valLE base (d :: tl) := by
      by_cases htl : tl = []
      · subst htl
        simp [List.getLast?] at hlast
        simp [valLE]; omega
      · have := valLE_pos base hb tl htl htlast
        simp only [valLE]
        have hbpos : 0 < base := by omega
        positivity
    match hv : valLE base (d :: tl), hfuel2 : fuel with
    | 0, _ => omega
    | m + 1, 0 => omega
    | m + 1, f + 1 =>
      simp only [natToDigitsAux]
      have hval : d + base * valLE base tl = m + 1 := by
        simpa [valLE] using hv
      have hmod : (m + 1) % base = d := by
        rw [← hval, Nat.add_mul_mod_self_left, Nat.mod_eq_of_lt hdlt]
      have hdiv : (m + 1) / base = valLE base tl := by
        rw [← hval, Nat.add_mul_div_left _ _ (by omega : 0 < base), Nat.div_eq_of_lt hdlt]
        omega
      rw [hmod, hdiv]
      have htfuel : valLE base tl ≤ f := by
        by_cases hz : valLE base tl = 0
        · omega
        · have h2 : 2 * valLE base tl ≤ base * valLE base tl :=
            Nat.mul_le_mul_right _ hb
          omega
      rw [ih f htfuel (fun x hx => hlt x (List.mem_cons_of_mem _ hx)) htlast]

/-- Big-endian canonical recovery: a digit list with digits `< base` and no
leading zero is recovered exactly from its value. -/
theorem natToDigits_digitsToNat (base : Nat) (hb : 2 ≤ base) (ds : List Nat)
    (hlt : ∀ d ∈ ds, d < base) (hhead : ds.head? ≠ some 0) :
    natToDigits base (digitsToNat base ds) = ds := by
  rw [natToDigits, digitsToNat_eq_valLE_reverse]
  have hlast : ds.reverse.getLast? ≠ some 0 := by
    rw [List.getLast?_reverse]
    exact hhead
  rw [natToDigitsAux_valLE base hb ds.reverse _ le_rfl
    (fun d hd => hlt d (List.mem_reverse.mp hd)) hlast]
  exact List.reverse_reverse ds

theorem b58Val_b58Char : ∀ d, d < 58 → b58Val (b58Char d) = some d := by decide

theorem b58Char_ne_one : ∀ d, d < 58 → d ≠ 0 → b58Char d ≠ '1' := by decide

theorem b58Vals_map (ds : List Nat) (h : ∀ d ∈ ds, d < 58) :
    b58Vals (ds.map b58Char) = some ds := by
  induction ds with
  | nil => rfl
  | cons d tl ih =>
    simp only [List.map_cons, b58Vals]
    rw [b58Val_b58Char d (h d (List.mem_cons_self d tl)),
      ih (fun x hx => h x (List.mem_cons_of_mem _ hx))]

theorem ones_to_zeros (l : List Nat) (h : ∀ x ∈ l, x = 0) :
    (l.map (fun _ => '1')).map (fun _ => (0 : Nat)) = l := by
  induction l with
  | nil => rfl
  | cons x tl ih =>
    simp only [List.map_cons, List.cons.injEq]
    exact ⟨(h x (List.mem_cons_self x tl)).symm,
      ih (fun y hy => h y (List.mem_cons_of_mem _ hy))⟩

theorem head?_dropWhile_ne_zero (bs : List Nat) :
    (bs.dropWhile (· == 0)).head? ≠ some 0 := by
  induction bs with
  | nil => simp
  | cons b t ih =>
    by_cases hb : b = 0
    · subst hb
      simpa [List.dropWhile_cons] using ih
    · simp [List.dropWhile_cons, hb]

theorem natToDigits_head? (base n : Nat) (hb : 2 ≤ base) :
    (natToDigits base n).head? ≠ some 0 := by
  rw [natToDigits, List.head?_reverse]
  by_cases h : natToDigitsAux base n n = []
  · rw [h]; simp
  · exact natToDigitsAux_getLast base hb n n le_rfl h

theorem natToDigits_lt (base n : Nat) (hb : 2 ≤ base) :
    ∀ d ∈ natToDigits base n, d < base := by
  intro d hd
  rw [natToDigits, List.mem_reverse] at hd
  exact natToDigitsAux_lt base hb n n d hd

theorem takeWhile_ones_split (zeros : List Nat) (dcs : List Char)
    (hd : ∀ c, dcs.head? = some c → c ≠ '1') :
    ((zeros.map (fun _ => '1') ++ dcs).takeWhile (· == '1') = zeros.map (fun _ => '1')) ∧
    ((zeros.map (fun _ => '1') ++ dcs).dropWhile (· == '1') = dcs) := by
  have hpos : ∀ c ∈ zeros.map (fun _ => '1'), ((c == '1') = true) := by
    intro c hc
    simp only [List.mem_map] at hc
    obtain ⟨x, _, rfl⟩ := hc
    rfl
  have hstop : dcs.takeWhile (· == '1') = [] ∧ dcs.dropWhile (· == '1') = dcs := by
    cases dcs with
    | nil => exact ⟨rfl, rfl⟩
    | cons c t =>
      have hc : (c == '1') = false := by
        have := hd c rfl
        simpa using this
      constructor
      · simp [List.takeWhile_cons, hc]
      · simp [List.dropWhile_cons, hc]
  constructor
  · rw [List.takeWhile_append_of_pos hpos, hstop.1, List.append_nil]
  · rw [List.dropWhile_append_of_pos hpos, hstop.2]

/-- Round trip of the Base58 transform: decoding the encoding of any byte
string returns it unchanged. -/
theorem base58Decode_base58Encode (bs : List Nat) (hlt : ∀ b ∈ bs, b < 256) :
    base58Decode (base58Encode bs) = some bs := by
  have hzmem : ∀ x ∈ bs.takeWhile (· == 0), x = 0 := by
    intro x hx
    have := List.mem_takeWhile_imp hx
    simpa using this
  have hrmem : ∀ x ∈ bs.dropWhile (· == 0), x < 256 := by
    intro x hx
    exact hlt x ((List.dropWhile_sublist (l := bs) (· == 0)).mem hx)
  have hrhead := head?_dropWhile_ne_zero bs
  have hn : natToDigits 256 (digitsToNat 256 (bs.dropWhile (· == 0)))
      = bs.dropWhile (· == 0) :=
    natToDigits_digitsToNat 256 (by omega) _ hrmem hrhead
  have hd58lt := natToDigits_lt 58 (digitsToNat 256 (bs.dropWhile (· == 0))) (by omega)
  have hd58head := natToDigits_head? 58 (digitsToNat 256 (bs.dropWhile (· == 0))) (by omega)
  have hdchar : ∀ c,
      ((natToDigits 58 (digitsToNat 256 (bs.dropWhile (· == 0)))).map b58Char).head? = some c
        → c ≠ '1' := by
    intro c hc
    cases hds : natToDigits 58 (digitsToNat 256 (bs.dropWhile (· == 0))) with
    | nil => rw [hds] at hc; simp at hc
    | cons d t =>
      rw [hds] at hc
      simp only [List.map_cons, List.head?_cons, Option.some.injEq] at hc
      subst hc
      refine b58Char_ne_one d (hd58lt d (by rw [hds]; exact List.mem_cons_self d t)) ?_
      intro h0
      subst h0
      exact hd58head (by rw [hds]; rfl)
  obtain ⟨htake, hdrop⟩ := takeWhile_ones_split (bs.takeWhile (· == 0)) _ hdchar
  have h1 : (base58Encode bs).toList
      = (bs.takeWhile (· == 0)).map (fun _ => '1')
        ++ (natToDigits 58 (digitsToNat 256 (bs.dropWhile (· == 0)))).map b58Char := rfl
  simp only [base58Decode, h1, htake, hdrop, b58Vals_map _ hd58lt]
  rw [digitsToNat_natToDigits 58 (by omega), hn, ones_to_zeros _ hzmem,
    List.takeWhile_append_dropWhile]

theorem checksum_length (H : List Nat → List Nat)
    (hHlen : ∀ l, 4 ≤ (H l).length) (p : List Nat) :
    (checksum H p).length = 4 := by
  simp only [checksum, List.length_take]
  exact Nat.min_eq_left (hHlen _)

theorem checksum_lt (H : List Nat → List Nat)
    (hH : ∀ l, ∀ b ∈ H l, b < 256) (p : List Nat) :
    ∀ b ∈ checksum H p, b < 256 :=
  fun b hb => hH _ b (List.mem_of_mem_take hb)

/-- Decoding the Base58Check encoding of a versioned payload with an
arbitrary trailing 4-byte block accepts exactly when the block equals the
recomputed checksum, and reports `ChecksumMismatch` otherwise. -/
theorem base58CheckDecode_append (H : List Nat → List Nat) (vp cs : List Nat)
    (hvp : ∀ b ∈ vp, b < 256) (hcs : ∀ b ∈ cs, b < 256)
    (hlen : cs.length = 4) (hne : vp ≠ []) :
    base58CheckDecode H (base58Encode (vp ++ cs)) =
      if cs = checksum H vp then .ok vp else .error .ChecksumMismatch := by
  have hall : ∀ b ∈ vp ++ cs, b < 256 := by
    intro b hb
    rcases List.mem_append.mp hb with h | h
    exacts [hvp b h, hcs b h]
  have h58 := base58Decode_base58Encode (vp ++ cs) hall
  simp only [base58CheckDecode, h58]
  have hvplen : 1 ≤ vp.length := List.length_pos.mpr hne
  have hlen2 : (vp ++ cs).length = vp.length + 4 := by
    simp [List.length_append, hlen]
  have hnlt : ¬ (vp ++ cs).length < 5 := by omega
  rw [if_neg hnlt]
  have hsub : (vp ++ cs).length - 4 = vp.length := by omega
  rw [hsub, List.take_left, List.drop_left]

theorem natToBytesFixed_lt (w n : Nat) : ∀ b ∈ natToBytesFixed w n, b < 256 := by
  intro b hb
  rcases List.mem_append.mp hb with h | h
  · rw [List.eq_of_mem_replicate h]; omega
  · exact natToDigits_lt 256 n (by omega) b h

theorem natToDigitsAux_length (base : Nat) (hb : 2 ≤ base) :
    ∀ fuel n m, n ≤ fuel → n < base ^ m → (natToDigitsAux base fuel n).length ≤ m := by
  intro fuel
  induction fuel with
  | zero =>
    intro n m hn _
    interval_cases n
    simp [natToDigitsAux]
  | succ f ih =>
    intro n m hn hlt
    match n with
    | 0 => simp [natToDigitsAux]
    | k + 1 =>
      match m with
      | 0 => simp at hlt
      | m + 1 =>
        have hdiv : (k + 1) / base ≤ f := by
          have h1 : (k + 1) / base ≤ (k + 1) / 2 := Nat.div_le_div_left hb (by omega)
          have h2 : (k + 1) / 2 ≤ k := by omega
          omega
        have hdivlt : (k + 1) / base < base ^ m := by
          rw [Nat.div_lt_iff_lt_mul (by omega : 0 < base)]
          calc k + 1 < base ^ (m + 1) := hlt
            _ = base ^ m * base := by ring
        simp only [natToDigitsAux, List.length_cons]
        have := ih ((k + 1) / base) m hdiv hdivlt
        omega

theorem natToDigits_length (base : Nat) (hb : 2 ≤ base) (n m : Nat)
    (h : n < base ^ m) : (natToDigits base n).length ≤ m := by
  rw [natToDigits, List.length_reverse]
  exact natToDigitsAux_length base hb n n m le_rfl h

theorem natToBytesFixed_length (w n : Nat) (h : n < 256 ^ w) :
    (natToBytesFixed w n).length = w := by
  have := natToDigits_length 256 (by omega) n w h
  simp only [natToBytesFixed, List.length_append, List.length_replicate]
  omega

theorem digitsToNat_replicate_zero (j : Nat) (l : List Nat) :
    digitsToNat 256 (List.replicate j 0 ++ l) = digitsToNat 256 l := by
  induction j with
  | zero => rfl
  | succ i ih =>
    have hc : List.replicate (i + 1) 0 ++ l = 0 :: (List.replicate i 0 ++ l) := by
      simp [List.replicate_succ]
    rw [hc]
    simp only [digitsToNat, List.foldl_cons]
    simpa [digitsToNat] using ih

theorem digitsToNat_natToBytesFixed (w n : Nat) :
    digitsToNat 256 (natToBytesFixed w n) = n := by
  rw [natToBytesFixed, digitsToNat_replicate_zero,
    digitsToNat_natToDigits 256 (by omega)]

/-- WIF round trip: importing the export of `(k, compressed)` recovers both
the key and the flag, for any byte-valued protocol hash. -/
theorem fromWif_toWif (H : List Nat → List Nat)
    (hH : ∀ l, ∀ b ∈ H l, b < 256) (hHlen : ∀ l, 4 ≤ (H l).length)
    (k : Nat) (c : Bool) (hk : k < 256 ^ 32) :
    fromWif H (toWif H k c) = .ok (k, c) := by
  have hkey_lt := natToBytesFixed_lt 32 k
  have hkey_len := natToBytesFixed_length 32 k hk
  have hvp : ∀ b ∈ 128 :: (natToBytesFixed 32 k ++ if c then [1] else []), b < 256 := by
    intro b hb
    rcases List.mem_cons.mp hb with h | h
    · omega
    · rcases List.mem_append.mp h with h2 | h2
      · exact hkey_lt b h2
      · cases c with
        | true => simp at h2; omega
        | false => simp at h2
  have hdec : base58CheckDecode H (base58Encode
      ((128 :: (natToBytesFixed 32 k ++ if c then [1] else [])) ++
        checksum H (128 :: (natToBytesFixed 32 k ++ if c then [1] else [])))) =
      .ok (128 :: (natToBytesFixed 32 k ++ if c then [1] else [])) := by
    rw [base58CheckDecode_append H _ _ hvp
      (checksum_lt H hH _) (checksum_length H hHlen _) (by simp)]
    rw [if_pos rfl]
  simp only [toWif, base58CheckEncode, fromWif, hdec]
  cases c with
  | true =>
    simp only [if_true]
    have hlen : (natToBytesFixed 32 k ++ [1]).length = 33 := by
      simp [hkey_len]
    have hlast : (natToBytesFixed 32 k ++ [1]).getLast? = some 1 := by
      simp
    rw [if_pos ⟨hlen, hlast⟩, List.take_left' hkey_len, digitsToNat_natToBytesFixed]
  | false =>
    simp only [Bool.false_eq_true, if_false, List.append_nil]
    have hno : ¬ ((natToBytesFixed 32 k).length = 33 ∧
        (natToBytesFixed 32 k).getLast? = some 1) := by
      rw [hkey_len]
      simp
    rw [if_neg hno, if_pos hkey_len, digitsToNat_natToBytesFixed]

theorem deriveKeyMaterial_spec (dp : Nat → Bool → List Nat)
    (da : List Nat → String) (input : PrivateKeyInput) (c : Bool) (k : Nat)
    (hparse : parsePrivateKey input = some k) :
    (deriveKeyMaterial dp da input c = .error .InvalidPrivateKey
      ↔ (k = 0 ∨ curveOrder ≤ k)) ∧
    (0 < k → k < curveOrder →
      deriveKeyMaterial dp da input c = .ok ⟨k, c, dp k c, da (dp k c)⟩) := by
  simp only [deriveKeyMaterial, hparse]
  constructor
  · by_cases h : k = 0 ∨ curveOrder ≤ k
    · rw [if_pos h]
      simp [h]
    · rw [if_neg h]
      simp [h]
  · intro h1 h2
    rw [if_neg (by omega)]

theorem set_ne_of_ne (l : List Nat) (i b : Nat) (hi : i < l.length)
    (hb : b ≠ l.getD i 0) : l.set i b ≠ l := by
  intro he
  apply hb
  have h1 : (l.set i b)[i]? = some b := List.getElem?_set_self hi
  rw [he] at h1
  have h2 : l.getD i 0 = b := by
    simp [List.getD_eq_getElem?_getD, h1]
  exact h2.symm

/-! ## Claims about the byte-transform and key engines -/

/-- C3: for every valid private key `k` and compressed flag, importing the
WIF string exported for `(k, compressed)` recovers both the same private
key and the same compressed flag; the flag is carried by the optional
compressed-key suffix marker inside the checksummed, Base58-encoded WIF
payload. -/
theorem claim_C3_wif_roundtrip (H : List Nat → List Nat)
    (hH : ∀ l, ∀ b ∈ H l, b < 256) (hHlen : ∀ l, 4 ≤ (H l).length)
    (k : Nat) (c : Bool) (hk : k < 256 ^ 32) :
    fromWif H (toWif H k c) = .ok (k, c) :=
  fromWif_toWif H hH hHlen k c hk

theorem claim_C3_wif_roundtrip_witness :
    fromWif (fun _ => [9, 8, 7, 6]) (toWif (fun _ => [9, 8, 7, 6]) 5 true)
      = .ok (5, true) :=
  claim_C3_wif_roundtrip (fun _ => [9, 8, 7, 6])
    (fun _ b hb => by simp at hb; omega) (fun _ => by simp) 5 true (by decide)

/-- C4: constructing key material from a private scalar (hex string,
big-integer, or raw bytes) fails with `InvalidPrivateKey` exactly when the
scalar is zero or at least the curve order; strictly inside the range,
construction succeeds and the public key and address are the pure
derivation functions applied to the scalar and the compressed flag. -/
theorem claim_C4_invalid_private_key (dp : Nat → Bool → List Nat)
    (da : List Nat → String) (input : PrivateKeyInput) (c : Bool) (k : Nat)
    (hparse : parsePrivateKey input = some k) :
    (deriveKeyMaterial dp da input c = .error .InvalidPrivateKey
      ↔ (k = 0 ∨ curveOrder ≤ k)) ∧
    (0 < k → k < curveOrder →
      deriveKeyMaterial dp da input c = .ok ⟨k, c, dp k c, da (dp k c)⟩) :=
  deriveKeyMaterial_spec dp da input c k hparse

theorem claim_C4_invalid_private_key_witness :
    ((deriveKeyMaterial (fun n _ => [n]) (fun _ => "a") (.big 5) true
        = .error .InvalidPrivateKey ↔ (5 = 0 ∨ curveOrder ≤ 5)) ∧
      (0 < 5 → 5 < curveOrder →
        deriveKeyMaterial (fun n _ => [n]) (fun _ => "a") (.big 5) true
          = .ok ⟨5, true, [5], "a"⟩)) :=
  claim_C4_invalid_private_key (fun n _ => [n]) (fun _ => "a") (.big 5) true 5 rfl

/-- C6: Base58Check decoding fails with `ChecksumMismatch` whenever the
trailing 4 bytes differ from the recomputed double-hash checksum of the
version byte plus payload; in particular, replacing any single checksum
byte of a valid Base58Check string by a different byte value makes
decoding fail with `ChecksumMismatch`. -/
theorem claim_C6_checksum_rejection :
    (∀ (H : List Nat → List Nat) (s : String) (bytes : List Nat),
        base58Decode s = some bytes → ¬ bytes.length < 5 →
        bytes.drop (bytes.length - 4) ≠ checksum H (bytes.take (bytes.length - 4)) →
        base58CheckDecode H s = .error .ChecksumMismatch) ∧
    (∀ (H : List Nat → List Nat) (vp : List Nat) (i b : Nat),
        (∀ x ∈ vp, x < 256) → (∀ l, ∀ x ∈ H l, x < 256) →
        (∀ l, 4 ≤ (H l).length) → vp ≠ [] → i < 4 → b < 256 →
        b ≠ (checksum H vp).getD i 0 →
        base58CheckDecode H (base58Encode (vp ++ (checksum H vp).set i b))
          = .error .ChecksumMismatch) := by
  constructor
  · intro H s bytes hdec hlen hne
    simp only [base58CheckDecode, hdec]
    rw [if_neg hlen, if_neg hne]
  · intro H vp i b hvp hH hHlen hne hi hb hbne
    have hcslen : ((checksum H vp).set i b).length = 4 := by
      rw [List.length_set]
      exact checksum_length H hHlen vp
    have hcslt : ∀ x ∈ (checksum H vp).set i b, x < 256 := by
      intro x hx
      rcases List.mem_or_eq_of_mem_set hx with h | h
      · exact checksum_lt H hH vp x h
      · omega
    rw [base58CheckDecode_append H vp _ hvp hcslt hcslen hne]
    have hiset : i < (checksum H vp).length := by
      rw [checksum_length H hHlen vp]
      exact hi
    rw [if_neg (set_ne_of_ne (checksum H vp) i b hiset hbne)]

theorem claim_C6_checksum_rejection_witness :
    base58CheckDecode (fun _ => [1, 2, 3, 4])
      (base58Encode ([0, 7] ++ (checksum (fun _ => [1, 2, 3, 4]) [0, 7]).set 0 9))
      = .error .ChecksumMismatch :=
  claim_C6_checksum_rejection.2 (fun _ => [1, 2, 3, 4]) [0, 7] 0 9
    (by decide) (fun _ x hx => by simp at hx; omega) (fun _ => by simp)
    (by decide) (by decide) (by decide) (by decide)

theorem merkleLevel_append_even {D : Type} (comb : D → D → D) :
    ∀ (xs : List D) (z : D), Even xs.length →
      merkleLevel comb (xs ++ [z]) = merkleLevel comb xs ++ [z] := by
  have H : ∀ (n : Nat) (xs : List D), xs.length ≤ n → ∀ z, Even xs.length →
      merkleLevel comb (xs ++ [z]) = merkleLevel comb xs ++ [z] := by
    intro n
    induction n with
    | zero =>
      intro xs hlen z _
      have hx : xs = [] := List.eq_nil_of_length_eq_zero (by omega)
      subst hx
      rfl
    | succ m ih =>
      intro xs hlen z heven
      match xs with
      | [] => rfl
      | [x] => simp [Nat.even_iff] at heven
      | x :: y :: rest =>
        have hr : rest.length ≤ m := by
          simp only [List.length_cons] at hlen
          omega
        have hre : Even rest.length := by
          rcases heven with ⟨r, hrr⟩
          simp only [List.length_cons] at hrr
          exact ⟨r - 1, by omega⟩
        show comb x y :: merkleLevel comb (rest ++ [z])
          = (comb x y :: merkleLevel comb rest) ++ [z]
        rw [ih rest hr z hre]
        rfl
  intro xs z heven
  exact H xs.length xs le_rfl z heven

/-! ## Claims about the merkle engine and the genesis codec -/

/-- C7: `merkleRoot` is total and deterministic — it combines leaves
pairwise bottom-up, an odd leftover node is promoted unchanged to the next
level, the empty sequence yields the defined empty-root digest, and the
root is order-sensitive: whenever the combiner distinguishes some ordered
pair, some reordering of the same multiset of leaves changes the root. -/
theorem claim_C7_merkle_root {D : Type} (comb : D → D → D) (empty : D)
    (a b : D) (hnc : comb a b ≠ comb b a) :
    (merkleRoot comb empty [] = empty) ∧
    (∀ (xs : List D) (z : D), Even xs.length →
      merkleLevel comb (xs ++ [z]) = merkleLevel comb xs ++ [z]) ∧
    (∃ l1 l2 : List D, l1.Perm l2 ∧
      merkleRoot comb empty l1 ≠ merkleRoot comb empty l2) := by
  refine ⟨rfl, merkleLevel_append_even comb, [a, b], [b, a], List.Perm.swap b a [], ?_⟩
  exact hnc

theorem claim_C7_merkle_root_witness :
    (merkleRoot (fun x y => 2 * x + y) 0 ([] : List Nat) = 0) ∧
    (∀ (xs : List Nat) (z : Nat), Even xs.length →
      merkleLevel (fun x y => 2 * x + y) (xs ++ [z])
        = merkleLevel (fun x y => 2 * x + y) xs ++ [z]) ∧
    (∃ l1 l2 : List Nat, l1.Perm l2 ∧
      merkleRoot (fun x y => 2 * x + y) 0 l1 ≠ merkleRoot (fun x y => 2 * x + y) 0 l2) :=
  claim_C7_merkle_root (fun x y => 2 * x + y) 0 0 1 (by decide)

/-- C8: in the dictionary-driven genesis path an entry whose key (or
alias) is not registered is not an error — its value passes through as raw
bytes unchanged on both encode and decode — while entries whose key or
alias resolves via the dictionary are delegated to the schema-driven codec
carried by the dictionary entry. -/
theorem claim_C8_genesis_passthrough :
    (∀ (S V : Type) (dict : List (DictEntry V)) (s : S) (k a : Option String)
        (bs : List Nat), resolveDictEntry dict k a = none →
        encodeGenesisData dict [(⟨s, k, a, .raw bs⟩ : GenesisEntryDecoded S V)]
            = some [⟨s, k, a, bs⟩] ∧
        decodeGenesisData (V := V) dict [(⟨s, k, a, bs⟩ : GenesisEntryEncoded S)]
            = some [⟨s, k, a, .raw bs⟩]) ∧
    (∀ (S V : Type) (dict : List (DictEntry V)) (s : S) (k a : Option String)
        (v : V) (d : DictEntry V), resolveDictEntry dict k a = some d →
        encodeGenesisEntry dict (⟨s, k, a, .structured v⟩ : GenesisEntryDecoded S V)
          = match d.encodeValue v with
            | some bs => some ⟨s, k, a, bs⟩
            | none => none) := by
  constructor
  · intro S V dict s k a bs hres
    constructor
    · simp only [encodeGenesisData, encodeGenesisEntry, hres]
    · simp only [decodeGenesisData, decodeGenesisEntry, hres]
  · intro S V dict s k a v d hres
    simp only [encodeGenesisEntry, hres]

theorem claim_C8_genesis_passthrough_witness :
    encodeGenesisData [(⟨"k1", some "a1", fun v => some [v], fun bs => bs.head?⟩ :
          DictEntry Nat)]
        [(⟨3, some "zz", none, .raw [5]⟩ : GenesisEntryDecoded Nat Nat)]
      = some [⟨3, some "zz", none, [5]⟩] ∧
    decodeGenesisData (V := Nat)
        [(⟨"k1", some "a1", fun v => some [v], fun bs => bs.head?⟩ : DictEntry Nat)]
        [(⟨3, some "zz", none, [5]⟩ : GenesisEntryEncoded Nat)]
      = some [⟨3, some "zz", none, .raw [5]⟩] :=
  claim_C8_genesis_passthrough.1 Nat Nat
    [⟨"k1", some "a1", fun v => some [v], fun bs => bs.head?⟩]
    3 (some "zz") none [5] rfl

theorem nsmul_mod {P : Type} [AddCommGroup P] {n : Nat} (G : P)
    (hG : n • G = 0) (m : Nat) : (m % n) • G = m • G := by
  conv_rhs => rw [← Nat.mod_add_div m n]
  rw [add_nsmul, mul_nsmul G n (m / n), hG, smul_zero, add_zero]

theorem zmodSmul_add {P : Type} [AddCommGroup P] {n : Nat} [NeZero n] (G : P)
    (hG : n • G = 0) (a b : ZMod n) :
    (a + b).val • G = a.val • G + b.val • G := by
  rw [ZMod.val_add, nsmul_mod G hG, add_nsmul]

theorem zmodSmul_mul {P : Type} [AddCommGroup P] {n : Nat} (G : P)
    (hG : n • G = 0) (a b : ZMod n) :
    (a * b).val • G = a.val • (b.val • G) := by
  rw [ZMod.val_mul, nsmul_mod G hG, mul_comm, mul_nsmul G b.val a.val]

/-! ## Claims about the signature engine and flag defaults -/

/-- C2: for every private scalar `k` and digest `z`, recovering the public
key from the compact signature produced by signing with nonce `t` yields
exactly the derived public key of `k`: the recovery id embedded in the
signature selects the correct candidate nonce point directly, with no
brute force over candidates at recovery time. -/
theorem claim_C2_sign_recover (P : Type) [AddCommGroup P] [DecidableEq P]
    (n : Nat) [Fact n.Prime] (G : P) (hG : n • G = 0)
    (serialize : P → Bool → List Nat) (xmap : P → ZMod n)
    (cands : ZMod n → List P) (hc : ∀ p : P, p ∈ cands (xmap p))
    (k z t : ZMod n) (c : Bool) (ht : t ≠ 0) (hr : xmap (t.val • G) ≠ 0) :
    recoverPublicKey serialize G cands z (signHash G xmap cands k z t) c
      = some (derivePublicKey serialize G k c) := by
  have hmem : t.val • G ∈ cands (xmap (t.val • G)) := hc _
  have hidx : (cands (xmap (t.val • G))).indexOf (t.val • G)
      < (cands (xmap (t.val • G))).length := List.indexOf_lt_length.mpr hmem
  have hget : (cands (xmap (t.val • G)))[(cands (xmap (t.val • G))).indexOf
      (t.val • G)]? = some (t.val • G) := by
    rw [List.getElem?_eq_getElem hidx, List.getElem_indexOf hidx]
  simp only [recoverPublicKey, signHash, hget]
  have e1 : (t⁻¹ * (z + xmap (t.val • G) * k)).val • (t.val • G)
      = (z + xmap (t.val • G) * k).val • G := by
    rw [← zmodSmul_mul G hG, mul_comm t⁻¹, mul_assoc, inv_mul_cancel₀ ht, mul_one]
  have e2 : (z + xmap (t.val • G) * k).val • G - z.val • G
      = (xmap (t.val • G) * k).val • G := by
    rw [zmodSmul_add G hG, add_sub_cancel_left]
  have e3 : ((xmap (t.val • G))⁻¹).val • ((xmap (t.val • G) * k).val • G)
      = k.val • G := by
    rw [← zmodSmul_mul G hG, ← mul_assoc, inv_mul_cancel₀ hr, one_mul]
  rw [e1, e2, e3]
  rfl

theorem claim_C2_sign_recover_witness :
    recoverPublicKey (fun p c => [ZMod.val p, if c then 1 else 0])
        (1 : ZMod 13) (fun r => [r]) 3
        (signHash (1 : ZMod 13) id (fun r => [r]) (2 : ZMod 13) 3 5) true
      = some (derivePublicKey (fun p c => [ZMod.val p, if c then 1 else 0])
          (1 : ZMod 13) (2 : ZMod 13) true) := by
  have h1 : (13 : Nat) • (1 : ZMod 13) = 0 := by decide
  have h2 : (5 : ZMod 13) ≠ 0 := by decide
  have h3 : id ((5 : ZMod 13).val • (1 : ZMod 13)) ≠ 0 := by decide
  haveI : Fact (Nat.Prime 13) := ⟨by norm_num⟩
  exact claim_C2_sign_recover (ZMod 13) 13 1 h1
    (fun p c => [ZMod.val p, if c then 1 else 0]) id (fun r => [r])
    (fun p => List.mem_singleton.mpr rfl) 2 3 5 true h2 h3

/-- C10: when the compressed flag is omitted at the public interface it
defaults to `true` everywhere — the constructor, `fromWif`, `fromSeed`,
`getAddress`, `recoverPublicKey` and `recoverAddress` behave exactly as if
`compressed = true` was passed. -/
theorem claim_C10_compressed_default :
    (resolveCompressedFlag none = true) ∧
    (∀ dp da input, signerNew dp da input none = signerNew dp da input (some true)) ∧
    (∀ H s, fromWifOpt H s none = fromWifOpt H s (some true)) ∧
    (∀ hash dp da seed, fromSeedOpt hash dp da seed none
      = fromSeedOpt hash dp da seed (some true)) ∧
    (∀ dp da k, getAddress dp da k none = getAddress dp da k (some true)) ∧
    (∀ (P : Type) (_i : AddCommGroup P) (n : Nat)
        (serialize : P → Bool → List Nat) (G : P) (cands : ZMod n → List P)
        (z : ZMod n) (sig : CompactSignature n),
      recoverPublicKeyOpt serialize G cands z sig none
        = recoverPublicKeyOpt serialize G cands z sig (some true)) ∧
    (∀ (P : Type) (_i : AddCommGroup P) (n : Nat)
        (serialize : P → Bool → List Nat) (deriveAddr : List Nat → String)
        (G : P) (cands : ZMod n → List P) (z : ZMod n)
        (sig : CompactSignature n),
      recoverAddressOpt serialize deriveAddr G cands z sig none
        = recoverAddressOpt serialize deriveAddr G cands z sig (some true)) :=
  ⟨rfl, fun _ _ _ => rfl, fun _ _ => rfl, fun _ _ _ _ => rfl, fun _ _ _ => rfl,
    fun _ _ _ _ _ _ _ _ => rfl, fun _ _ _ _ _ _ _ _ _ => rfl⟩

theorem decodeVarint_encodeVarintAux :
    ∀ fuel n, n ≤ fuel → ∀ rest,
      decodeVarint (encodeVarintAux fuel n ++ rest) = some (n, rest) := by
  intro fuel
  induction fuel with
  | zero =>
    intro n hn rest
    interval_cases n
    simp [encodeVarintAux, decodeVarint]
  | succ f ih =>
    intro n hn rest
    by_cases h : n < 128
    · simp [encodeVarintAux, h, decodeVarint]
    · have hdiv : n / 128 ≤ f := by
        have := Nat.div_lt_self (by omega : 0 < n) (by omega : 1 < 128)
        omega
      simp only [encodeVarintAux, if_neg h, List.cons_append, decodeVarint,
        if_neg (by omega : ¬ n % 128 + 128 < 128), ih _ hdiv rest]
      have : n % 128 + 128 - 128 + 128 * (n / 128) = n := by omega
      rw [this]

theorem decodeVarint_encodeVarint (n : Nat) (rest : List Nat) :
    decodeVarint (encodeVarint n ++ rest) = some (n, rest) :=
  decodeVarint_encodeVarintAux n n le_rfl rest

theorem encodeVarintAux_ne_nil (fuel n : Nat) : encodeVarintAux fuel n ≠ [] := by
  match fuel with
  | 0 => simp [encodeVarintAux]
  | f + 1 =>
    simp only [encodeVarintAux]
    split <;> simp

theorem decodeWirePayload_encodeWireVal (ft : FType) (w : WireVal)
    (hty : typeOk ft w) (rest : List Nat) :
    decodeWirePayload ft (encodeWireVal w ++ rest) = some (w, rest) := by
  match ft, w with
  | .uintT, .vint n =>
    simp [decodeWirePayload, encodeWireVal, decodeVarint_encodeVarint]
  | .uintT, .vbytes _ => exact absurd hty (by simp [typeOk])
  | .bytesT, .vint _ => exact absurd hty (by simp [typeOk])
  | .bytesT, .vbytes bs =>
    simp only [decodeWirePayload, encodeWireVal, List.append_assoc,
      decodeVarint_encodeVarint]
    rw [if_pos (by simp [List.length_append])]
    rw [List.take_left, List.drop_left]

theorem findFieldNum_self (F : List FieldDef)
    (hnd : (F.map (fun fd => fd.fieldNumber)).Nodup) (fd : FieldDef)
    (hmem : fd ∈ F) : findFieldNum F fd.fieldNumber = some fd := by
  induction F with
  | nil => simp at hmem
  | cons g gs ih =>
    rcases List.mem_cons.mp hmem with h | h
    · subst h
      simp [findFieldNum, List.find?]
    · have hnd2 : g.fieldNumber ∉ gs.map (fun x => x.fieldNumber)
          ∧ (gs.map (fun x => x.fieldNumber)).Nodup := by
        rw [List.map_cons, List.nodup_cons] at hnd
        exact hnd
      have hne : g.fieldNumber ≠ fd.fieldNumber := by
        intro he
        exact hnd2.1 (he ▸ List.mem_map_of_mem (fun x => x.fieldNumber) h)
      simp only [findFieldNum, List.find?]
      rw [show (g.fieldNumber == fd.fieldNumber) = false by simpa using hne]
      exact ih hnd2.2 h

theorem decode_step (F : List FieldDef) (fd : FieldDef)
    (hfind : findFieldNum F fd.fieldNumber = some fd) (w : WireVal)
    (hty : typeOk fd.ftype w) (fuel : Nat) (rest : List Nat) (acc : MessageVal) :
    decodeFieldsAux F (fuel + 1)
        ((encodeTag fd.fieldNumber fd.ftype ++ encodeWireVal w) ++ rest) acc
      = decodeFieldsAux F fuel rest (addWire F acc fd.fieldNumber w) := by
  have hwt : wireType fd.ftype < 8 := by
    cases fd.ftype <;> simp [wireType]
  cases henc : encodeTag fd.fieldNumber fd.ftype with
  | nil => exact absurd henc (encodeVarintAux_ne_nil _ _)
  | cons b t =>
    have hv : decodeVarint (b :: (t ++ (encodeWireVal w ++ rest)))
        = some (fd.fieldNumber * 8 + wireType fd.ftype, encodeWireVal w ++ rest) := by
      have h0 := decodeVarint_encodeVarint (fd.fieldNumber * 8 + wireType fd.ftype)
        (encodeWireVal w ++ rest)
      rw [show encodeVarint (fd.fieldNumber * 8 + wireType fd.ftype) = b :: t from henc]
        at h0
      simpa using h0
    have h8 : (fd.fieldNumber * 8 + wireType fd.ftype) / 8 = fd.fieldNumber := by omega
    have h8b : (fd.fieldNumber * 8 + wireType fd.ftype) % 8 = wireType fd.ftype := by omega
    rw [show ((b :: t) ++ encodeWireVal w) ++ rest
      = b :: (t ++ (encodeWireVal w ++ rest)) by simp]
    simp only [decodeFieldsAux, hv, h8, h8b, hfind,
      decodeWirePayload_encodeWireVal fd.ftype w hty rest, eq_self_iff_true, if_true]

theorem decode_items (F : List FieldDef) (fd : FieldDef)
    (hfind : findFieldNum F fd.fieldNumber = some fd) :
    ∀ (ws : List WireVal), (∀ w ∈ ws, typeOk fd.ftype w) →
    ∀ fuel rest acc, ws.length ≤ fuel →
      decodeFieldsAux F fuel
        (((ws.map (fun w => encodeTag fd.fieldNumber fd.ftype ++ encodeWireVal w)).flatten)
          ++ rest) acc
      = decodeFieldsAux F (fuel - ws.length) rest
          (ws.foldl (fun a w => addWire F a fd.fieldNumber w) acc) := by
  intro ws
  induction ws with
  | nil =>
    intro _ fuel rest acc _
    simp
  | cons w ws2 ih =>
    intro hty fuel rest acc hlen
    match fuel with
    | 0 => simp at hlen
    | f + 1 =>
      rw [List.map_cons, List.flatten_cons, List.append_assoc,
        decode_step F fd hfind w (hty w (List.mem_cons_self w ws2)) f _ acc]
      have hlen2 : ws2.length ≤ f := by
        simp only [List.length_cons] at hlen
        omega
      rw [ih (fun x hx => hty x (List.mem_cons_of_mem _ hx)) f rest
        (addWire F acc fd.fieldNumber w) hlen2]
      simp only [List.foldl_cons, List.length_cons]
      rw [show f + 1 - (ws2.length + 1) = f - ws2.length from by omega]

theorem encodeTag_length_pos (fn : Nat) (ft : FType) : 1 ≤ (encodeTag fn ft).length := by
  cases henc : encodeTag fn ft with
  | nil => exact absurd henc (encodeVarintAux_ne_nil _ _)
  | cons b t => simp

theorem encodeFieldEntry_length (fd : FieldDef) (fv : FieldVal) :
    (wireItems fv).length ≤ (encodeFieldEntry fd fv).length := by
  unfold encodeFieldEntry
  induction wireItems fv with
  | nil => simp
  | cons w ws ih =>
    simp only [List.map_cons, List.flatten_cons, List.length_append, List.length_cons]
    have := encodeTag_length_pos fd.fieldNumber fd.ftype
    have h2 : 1 ≤ (encodeTag fd.fieldNumber fd.ftype ++ encodeWireVal w).length := by
      simp only [List.length_append]
      omega
    omega

theorem itemCount_le_length :
    ∀ (F2 : List FieldDef) (v2 : MessageVal), laxMatch F2 v2 →
      itemCount v2 ≤ (encodeFields F2 v2).length := by
  intro F2
  induction F2 with
  | nil =>
    intro v2 h
    cases v2 with
    | nil => simp [itemCount, encodeFields]
    | cons e vs => exact absurd h (by simp [laxMatch])
  | cons fd fds ih =>
    intro v2 h
    cases v2 with
    | nil => exact absurd h (by simp [laxMatch])
    | cons e vs =>
      obtain ⟨nm, fv⟩ := e
      obtain ⟨_, _, hrest⟩ := h
      have h1 := encodeFieldEntry_length fd fv
      have h2 := ih vs hrest
      show (wireItems fv).length + itemCount vs
        ≤ (encodeFieldEntry fd fv ++ encodeFields fds vs).length
      simp only [List.length_append]
      omega

theorem decode_fields_eq (F : List FieldDef) :
    ∀ (F2 : List FieldDef) (v2 : MessageVal), laxMatch F2 v2 →
      (∀ fd ∈ F2, findFieldNum F fd.fieldNumber = some fd) →
      ∀ fuel rest acc, itemCount v2 ≤ fuel →
        decodeFieldsAux F fuel (encodeFields F2 v2 ++ rest) acc
          = decodeFieldsAux F (fuel - itemCount v2) rest (applyFields F acc F2 v2) := by
  intro F2
  induction F2 with
  | nil =>
    intro v2 h hf fuel rest acc hfuel
    cases v2 with
    | nil => simp [encodeFields, itemCount, applyFields]
    | cons e vs => exact absurd h (by simp [laxMatch])
  | cons fd fds ih =>
    intro v2 h hf fuel rest acc hfuel
    cases v2 with
    | nil => exact absurd h (by simp [laxMatch])
    | cons e vs =>
      obtain ⟨nm, fv⟩ := e
      obtain ⟨hnm, hok, hrest⟩ := h
      have hty : ∀ w ∈ wireItems fv, typeOk fd.ftype w := by
        cases fv with
        | absent => simp [wireItems]
        | single w =>
          intro x hx
          rw [show x = w by simpa [wireItems] using hx]
          exact hok.2
        | many ws => exact hok.2
      have hcount : itemCount ((nm, fv) :: vs)
          = (wireItems fv).length + itemCount vs := rfl
      rw [show encodeFields (fd :: fds) ((nm, fv) :: vs)
          = encodeFieldEntry fd fv ++ encodeFields fds vs from rfl,
        List.append_assoc,
        show encodeFieldEntry fd fv
          = ((wireItems fv).map
              (fun w => encodeTag fd.fieldNumber fd.ftype ++ encodeWireVal w)).flatten
          from rfl,
        decode_items F fd (hf fd (List.mem_cons_self fd fds)) (wireItems fv) hty fuel
          (encodeFields fds vs ++ rest) acc (by rw [hcount] at hfuel; omega),
        ih vs hrest (fun g hg => hf g (List.mem_cons_of_mem _ hg))
          (fuel - (wireItems fv).length) rest
          ((wireItems fv).foldl (fun a w => addWire F a fd.fieldNumber w) acc)
          (by rw [hcount] at hfuel; omega),
        show applyFields F acc (fd :: fds) ((nm, fv) :: vs)
          = applyFields F
              ((wireItems fv).foldl (fun a w => addWire F a fd.fieldNumber w) acc) fds vs
          from rfl]
      congr 1
      rw [hcount]
      omega

theorem addWire_append (Fpre : List FieldDef) (vpre : MessageVal)
    (hlen : vpre.length = Fpre.length) (Frest : List FieldDef) (vrest : MessageVal)
    (fn : Nat) (hfn : ∀ g ∈ Fpre, g.fieldNumber ≠ fn) (w : WireVal) :
    addWire (Fpre ++ Frest) (vpre ++ vrest) fn w = vpre ++ addWire Frest vrest fn w := by
  induction Fpre generalizing vpre with
  | nil =>
    cases vpre with
    | nil => rfl
    | cons e ves => simp at hlen
  | cons g gs ih =>
    cases vpre with
    | nil => simp at hlen
    | cons e ves =>
      obtain ⟨nm, fv⟩ := e
      simp only [List.cons_append, addWire]
      rw [if_neg (hfn g (List.mem_cons_self g gs))]
      exact congrArg (fun l => (nm, fv) :: l)
        (ih ves (by simpa using hlen) (fun x hx => hfn x (List.mem_cons_of_mem _ hx)))

theorem foldl_addWire_many (Fpre : List FieldDef) (fd : FieldDef)
    (fds : List FieldDef) (hfn : ∀ g ∈ Fpre, g.fieldNumber ≠ fd.fieldNumber)
    (vpre : MessageVal) (hlen : vpre.length = Fpre.length) (nm : String)
    (tail : MessageVal) :
    ∀ (ws cur : List WireVal),
      ws.foldl (fun a w => addWire (Fpre ++ fd :: fds) a fd.fieldNumber w)
        (vpre ++ ((nm, .many cur) :: tail))
      = vpre ++ ((nm, .many (cur ++ ws)) :: tail) := by
  intro ws
  induction ws with
  | nil =>
    intro cur
    simp
  | cons w ws2 ih =>
    intro cur
    simp only [List.foldl_cons]
    rw [addWire_append Fpre vpre hlen _ _ _ hfn w,
      show addWire (fd :: fds) ((nm, .many cur) :: tail) fd.fieldNumber w
        = (nm, .many (cur ++ [w])) :: tail by simp [addWire],
      ih (cur ++ [w])]
    simp

theorem applyFields_canonicalize :
    ∀ (F2 : List FieldDef) (v2 : MessageVal) (Fpre : List FieldDef)
      (vpre : MessageVal), laxMatch F2 v2 →
      (((Fpre ++ F2).map (fun fd => fd.fieldNumber))).Nodup →
      vpre.length = Fpre.length →
      applyFields (Fpre ++ F2) (vpre ++ initMessage F2) F2 v2
        = vpre ++ canonicalizeFields F2 v2 := by
  intro F2
  induction F2 with
  | nil =>
    intro v2 Fpre vpre h _ _
    cases v2 with
    | nil => simp [applyFields, canonicalizeFields, initMessage]
    | cons e vs => exact absurd h (by simp [laxMatch])
  | cons fd fds ih =>
    intro v2 Fpre vpre h hnd hlen
    cases v2 with
    | nil => exact absurd h (by simp [laxMatch])
    | cons e vs =>
      obtain ⟨nm, fv⟩ := e
      obtain ⟨hnm, hok, hrest⟩ := h
      have hfn : ∀ g ∈ Fpre, g.fieldNumber ≠ fd.fieldNumber := by
        intro g hg he
        rw [List.map_append] at hnd
        have hd := (List.nodup_append.mp hnd).2.2
        exact hd (List.mem_map_of_mem _ hg) (by rw [he]; simp)
      have hinit : initMessage (fd :: fds)
          = (fd.name, if fd.repeatedRule then FieldVal.many [] else FieldVal.absent)
            :: initMessage fds := rfl
      have hfold : (wireItems fv).foldl
          (fun a w => addWire (Fpre ++ fd :: fds) a fd.fieldNumber w)
          (vpre ++ initMessage (fd :: fds))
          = vpre ++ ((fd.name,
              if fd.repeatedRule = true ∧ fv = .absent then .many []
              else fv) :: initMessage fds) := by
        rw [hinit]
        cases hrep : fd.repeatedRule with
        | true =>
          cases fv with
          | absent =>
            simp [wireItems]
          | single w =>
            obtain ⟨h1, _⟩ := hok
            rw [hrep] at h1
            exact absurd h1 (by simp)
          | many ws =>
            simp only [wireItems, eq_self_iff_true, if_true, reduceCtorEq, and_false,
              if_false]
            rw [foldl_addWire_many Fpre fd fds hfn vpre hlen fd.name
              (initMessage fds) ws []]
            simp
        | false =>
          cases fv with
          | absent =>
            simp [wireItems]
          | single w =>
            simp only [wireItems, List.foldl_cons, List.foldl_nil,
              Bool.false_eq_true, if_false, false_and]
            rw [addWire_append Fpre vpre hlen _ _ _ hfn w,
              show addWire (fd :: fds) ((fd.name, FieldVal.absent) :: initMessage fds)
                  fd.fieldNumber w
                = (fd.name, .single w) :: initMessage fds by simp [addWire]]
          | many ws =>
            obtain ⟨h1, _⟩ := hok
            rw [hrep] at h1
            exact absurd h1 (by simp)
      rw [show applyFields (Fpre ++ fd :: fds) (vpre ++ initMessage (fd :: fds))
            (fd :: fds) ((nm, fv) :: vs)
          = applyFields (Fpre ++ fd :: fds)
              ((wireItems fv).foldl
                (fun a w => addWire (Fpre ++ fd :: fds) a fd.fieldNumber w)
                (vpre ++ initMessage (fd :: fds))) fds vs from rfl,
        hfold]
      have hassoc : Fpre ++ fd :: fds = (Fpre ++ [fd]) ++ fds := by simp
      rw [show vpre ++ ((fd.name,
            if fd.repeatedRule = true ∧ fv = .absent then .many [] else fv)
            :: initMessage fds)
          = (vpre ++ [(fd.name,
              if fd.repeatedRule = true ∧ fv = .absent then .many [] else fv)])
            ++ initMessage fds by simp,
        hassoc,
        ih vs (Fpre ++ [fd]) _ hrest (by rw [← hassoc]; exact hnd) (by simp [hlen])]
      rw [show canonicalizeFields (fd :: fds) ((nm, fv) :: vs)
          = (nm, if fd.repeatedRule = true ∧ fv = .absent then .many [] else fv)
            :: canonicalizeFields fds vs from rfl]
      rw [hnm]
      simp

/-- The central codec round trip: decoding the encoding of any schema-valid
value yields its canonical form (absent repeated fields become empty
sequences; everything else is returned unchanged). -/
theorem decodeMessage_encodeFields (sch : TypeSchema)
    (hnd : (sch.fields.map (fun fd => fd.fieldNumber)).Nodup)
    (v : MessageVal) (hv : laxMatch sch.fields v) :
    decodeMessage sch (encodeFields sch.fields v)
      = .ok (canonicalizeFields sch.fields v) := by
  have hfind : ∀ fd ∈ sch.fields, findFieldNum sch.fields fd.fieldNumber = some fd :=
    fun fd hm => findFieldNum_self sch.fields hnd fd hm
  have hitem := itemCount_le_length sch.fields v hv
  have hC := decode_fields_eq sch.fields sch.fields v hv hfind
    (encodeFields sch.fields v).length [] (initMessage sch.fields) hitem
  rw [List.append_nil] at hC
  unfold decodeMessage
  rw [hC]
  have hD := applyFields_canonicalize sch.fields v [] [] hv (by simpa using hnd) rfl
  simp only [List.nil_append] at hD
  rw [hD]
  simp [decodeFieldsAux]

theorem canonMatch_laxMatch : ∀ (F : List FieldDef) (v : MessageVal),
    canonMatch F v → laxMatch F v := by
  intro F
  induction F with
  | nil =>
    intro v h
    cases v with
    | nil => trivial
    | cons e vs => exact absurd h (by simp [canonMatch])
  | cons fd fds ih =>
    intro v h
    cases v with
    | nil => exact absurd h (by simp [canonMatch])
    | cons e vs =>
      obtain ⟨nm, fv⟩ := e
      obtain ⟨h1, h2, _, h4⟩ := h
      exact ⟨h1, h2, ih vs h4⟩

theorem canonicalizeFields_of_canonMatch : ∀ (F : List FieldDef) (v : MessageVal),
    canonMatch F v → canonicalizeFields F v = v := by
  intro F
  induction F with
  | nil =>
    intro v h
    cases v with
    | nil => rfl
    | cons e vs => exact absurd h (by simp [canonMatch])
  | cons fd fds ih =>
    intro v h
    cases v with
    | nil => exact absurd h (by simp [canonMatch])
    | cons e vs =>
      obtain ⟨nm, fv⟩ := e
      obtain ⟨h1, h2, h3, h4⟩ := h
      show (nm, if fd.repeatedRule = true ∧ fv = .absent then .many [] else fv)
          :: canonicalizeFields fds vs = (nm, fv) :: vs
      rw [ih vs h4]
      by_cases hc : fd.repeatedRule = true ∧ fv = FieldVal.absent
      · exact absurd hc.2 (h3 hc.1)
      · rw [if_neg hc]

theorem ambiguousOneof_iff (sch : TypeSchema) (v : MessageVal) :
    ambiguousOneof sch v = true
      ↔ ∃ g ∈ oneofGroups sch.fields, 2 ≤ populatedInGroup g sch.fields v := by
  simp [ambiguousOneof, List.any_eq_true]

/-! ## Claims about the binary codec -/

/-- C1: for every valid pair of value and type name, decoding the bytes
produced by encoding the value with that type name returns a value equal to
the original (canonical values are returned exactly; in general decoding
returns the canonical form, where an absent repeated field and an empty
sequence both come back as an empty sequence, and an absent repeated field
encodes to the same bytes as an empty one). -/
theorem claim_C1_codec_roundtrip :
    (∀ (reg : SchemaRegistry) (tn : String) (sch : TypeSchema) (v : MessageVal),
        resolve reg tn = some sch →
        (sch.fields.map (fun fd => fd.fieldNumber)).Nodup →
        canonMatch sch.fields v → ambiguousOneof sch v = false →
        encode reg tn v = .ok (encodeFields sch.fields v) ∧
        decode reg tn (encodeFields sch.fields v) = .ok v) ∧
    (∀ (reg : SchemaRegistry) (tn : String) (sch : TypeSchema) (v : MessageVal),
        resolve reg tn = some sch →
        (sch.fields.map (fun fd => fd.fieldNumber)).Nodup →
        laxMatch sch.fields v →
        decode reg tn (encodeFields sch.fields v)
          = .ok (canonicalizeFields sch.fields v)) ∧
    (∀ (fd : FieldDef) (nm : String), fd.repeatedRule = true →
        encodeFieldEntry fd .absent = [] ∧ encodeFieldEntry fd (.many []) = [] ∧
        canonicalizeFields [fd] [(nm, .absent)] = [(nm, .many [])] ∧
        canonicalizeFields [fd] [(nm, .many [])] = [(nm, .many [])]) := by
  refine ⟨?_, ?_, ?_⟩
  · intro reg tn sch v hres hnd hcanon hamb
    constructor
    · simp only [encode, hres, encodeMessage, hamb, Bool.false_eq_true, if_false]
    · simp only [decode, hres]
      rw [decodeMessage_encodeFields sch hnd v (canonMatch_laxMatch sch.fields v hcanon),
        canonicalizeFields_of_canonMatch sch.fields v hcanon]
  · intro reg tn sch v hres hnd hlax
    simp only [decode, hres]
    exact decodeMessage_encodeFields sch hnd v hlax
  · intro fd nm hrep
    refine ⟨rfl, rfl, ?_, ?_⟩
    · simp [canonicalizeFields, hrep]
    · simp [canonicalizeFields]

theorem claim_C1_codec_roundtrip_witness :
    encode [("T", ⟨[⟨"a", .uintT, 1, false, none⟩, ⟨"b", .bytesT, 2, true, none⟩]⟩)]
        "T" [("a", .single (.vint 300)), ("b", .many [.vbytes [7, 200]])]
      = .ok (encodeFields [⟨"a", .uintT, 1, false, none⟩, ⟨"b", .bytesT, 2, true, none⟩]
          [("a", .single (.vint 300)), ("b", .many [.vbytes [7, 200]])]) ∧
    decode [("T", ⟨[⟨"a", .uintT, 1, false, none⟩, ⟨"b", .bytesT, 2, true, none⟩]⟩)]
        "T" (encodeFields [⟨"a", .uintT, 1, false, none⟩, ⟨"b", .bytesT, 2, true, none⟩]
          [("a", .single (.vint 300)), ("b", .many [.vbytes [7, 200]])])
      = .ok [("a", .single (.vint 300)), ("b", .many [.vbytes [7, 200]])] :=
  claim_C1_codec_roundtrip.1
    [("T", ⟨[⟨"a", .uintT, 1, false, none⟩, ⟨"b", .bytesT, 2, true, none⟩]⟩)] "T"
    ⟨[⟨"a", .uintT, 1, false, none⟩, ⟨"b", .bytesT, 2, true, none⟩]⟩
    [("a", .single (.vint 300)), ("b", .many [.vbytes [7, 200]])]
    rfl (by decide) (by simp [canonMatch, laxFieldOk, typeOk]) rfl

/-- C5: when encoding a value containing a oneof group, encoding succeeds
with the group omitted if no member is present, succeeds when at most one
member is present, and fails with `AmbiguousOneof` whenever more than one
member of the same group is populated. -/
theorem claim_C5_oneof_exclusivity :
    (∀ (sch : TypeSchema) (v : MessageVal),
        (∃ g ∈ oneofGroups sch.fields, 2 ≤ populatedInGroup g sch.fields v) →
        encodeMessage sch v = .error .AmbiguousOneof) ∧
    (∀ (sch : TypeSchema) (v : MessageVal),
        (∀ g ∈ oneofGroups sch.fields, populatedInGroup g sch.fields v ≤ 1) →
        encodeMessage sch v = .ok (encodeFields sch.fields v)) ∧
    (∀ fd : FieldDef, encodeFieldEntry fd .absent = []) := by
  refine ⟨?_, ?_, fun _ => rfl⟩
  · intro sch v h
    have hamb : ambiguousOneof sch v = true := (ambiguousOneof_iff sch v).mpr h
    simp only [encodeMessage, hamb, if_true]
  · intro sch v h
    have hamb : ambiguousOneof sch v = false := by
      rw [← Bool.not_eq_true, ambiguousOneof_iff]
      push_neg
      intro g hg
      have := h g hg
      omega
    simp only [encodeMessage, hamb, Bool.false_eq_true, if_false]

theorem claim_C5_oneof_exclusivity_witness :
    encodeMessage ⟨[⟨"a", .uintT, 1, false, some "g"⟩, ⟨"b", .uintT, 2, false, some "g"⟩]⟩
        [("a", .single (.vint 1)), ("b", .single (.vint 2))]
      = .error .AmbiguousOneof :=
  claim_C5_oneof_exclusivity.1
    ⟨[⟨"a", .uintT, 1, false, some "g"⟩, ⟨"b", .uintT, 2, false, some "g"⟩]⟩
    [("a", .single (.vint 1)), ("b", .single (.vint 2))]
    ⟨"g", by decide, by decide⟩

set_option maxRecDepth 100000 in
/-- FIPS 180 test vector anchoring the SHA-256 implementation. -/
theorem sha256_abc : sha256 [97, 98, 99]
    = [0xba, 0x78, 0x16, 0xbf, 0x8f, 0x01, 0xcf, 0xea, 0x41, 0x41, 0x40, 0xde,
       0x5d, 0xae, 0x22, 0x23, 0xb0, 0x03, 0x61, 0xa3, 0x96, 0x17, 0x7a, 0x9c,
       0xb4, 0x10, 0xff, 0x61, 0xf2, 0x00, 0x15, 0xad] := by decide

set_option maxRecDepth 100000 in
/-- Standard test vector anchoring the RIPEMD-160 implementation. -/
theorem ripemd160_abc : ripemd160 [97, 98, 99]
    = [0x8e, 0xb2, 0x08, 0xf7, 0xe0, 0x5d, 0x98, 0x7a, 0x9b, 0x04, 0x4a, 0x8e,
       0x98, 0xc6, 0xb0, 0x87, 0xf1, 0x5a, 0x0b, 0xfc] := by decide

set_option maxRecDepth 100000 in
/-- Anchor for the Jacobian scalar multiplication: on the base point and the
scalar 5 it agrees with naive affine chord-and-tangent addition. -/
theorem ecMul_five_affine :
    ecMul 5 (some (secpGx, secpGy)) =
      ecAdd (ecAdd (ecAdd (some (secpGx, secpGy)) (some (secpGx, secpGy)))
        (ecAdd (some (secpGx, secpGy)) (some (secpGx, secpGy))))
        (some (secpGx, secpGy)) := by decide

set_option maxHeartbeats 16000000 in
set_option maxRecDepth 100000 in
/-- C9: deterministic seed derivation is a pure function of the seed string;
for the fixed seed string the pipeline — SHA-256 of the seed reduced modulo
the curve order, compressed secp256k1 public key, SHA-256 then RIPEMD-160,
version byte, double-SHA-256 checksum, Base58 — returns exactly the
documented golden address. -/
theorem claim_C9_seed_golden_address :
    fromSeedAddress "my seed" = "1BqtgWBcqm9cSZ97avLGZGJdgso7wx6pCA" := by decide

end Koilib
